/-
Verification of the sparse-matrix compute core of a graph-learning library.

The development shallowly embeds the CPU reference semantics of the C++
sources: CSR/COO sparse matrices and their sort / conversion / lookup
operators (array/cpu/csr_sort.cc, array/cpu/spmat_op_impl_coo.cc), the
SpMM dispatchers (kernel spmm.cc), and the sparse collective layer
(runtime/cuda/nccl_api.cu).  Machine integers are modelled as Nat/Int
(ids in the sources are non-negative int32/int64 values), tensors as
lists, and fatal CHECK / LOG(FATAL) paths as Except.  OpenMP parallel
loops are embedded by their sequential (single-thread) semantics, which
is the observable behaviour the sources promise for disjoint writes.
-/
import Mathlib

namespace DGLCore

/-! ## Sparse matrix data model -/

/-- CSR sparse matrix: row pointer + column indices, optional edge-id
permutation array (`data`); absence of `data` means the implicit identity
mapping position -> edge id.  Mirrors `dgl::aten::CSRMatrix`. -/
structure CSRMatrix where
  num_rows : Nat
  num_cols : Nat
  indptr : List Nat
  indices : List Nat
  data : Option (List Nat)
  sorted : Bool
deriving Repr, DecidableEq

/-- COO sparse matrix: parallel row/col arrays, optional edge-id array,
sortedness flags.  Mirrors `dgl::aten::COOMatrix`. -/
structure COOMatrix where
  num_rows : Nat
  num_cols : Nat
  row : List Nat
  col : List Nat
  data : Option (List Nat)
  row_sorted : Bool
  col_sorted : Bool
deriving Repr, DecidableEq

/-- `aten::CSRHasData`. -/
def CSRHasData (csr : CSRMatrix) : Bool := csr.data.isSome

/-- `aten::COOHasData`. -/
def COOHasData (coo : COOMatrix) : Bool := coo.data.isSome

/-- Edge-id array of a CSR matrix: its `data` array when present, else the
identity `aten::Range(0, nnz)` array. -/
def CSRMatrix.eids (csr : CSRMatrix) : List Nat :=
  csr.data.getD (List.range csr.indices.length)

/-- Edge id of COO entry `k`: `data ? data[k] : k`, the pattern used
throughout spmat_op_impl_coo.cc. -/
def COOMatrix.eid (coo : COOMatrix) (k : Nat) : Nat :=
  match coo.data with
  | some d => d.getD k 0
  | none => k

/-- The slice of a flat array belonging to positions `[s, e)`: the view
`ptr + indptr[row] .. ptr + indptr[row+1]` used by the row loops. -/
def rowSlice {α : Type} (l : List α) (s e : Nat) : List α :=
  (l.drop s).take (e - s)

/-- Structural invariant of a CSR matrix (spec section 3): `indptr` has
length `num_rows+1`, starts at 0, ends at nnz, is monotone, and `data`
(when present) parallels `indices`. -/
def CSRWF (csr : CSRMatrix) : Prop :=
  csr.indptr.length = csr.num_rows + 1 ∧
  csr.indptr.getD 0 0 = 0 ∧
  csr.indptr.getD csr.num_rows 0 = csr.indices.length ∧
  (∀ r, r < csr.num_rows → csr.indptr.getD r 0 ≤ csr.indptr.getD (r + 1) 0) ∧
  (∀ d, csr.data = some d → d.length = csr.indices.length)

/-! ## CSRIsSorted and CSRSort_  (array/cpu/csr_sort.cc) -/

/-- `CSRIsSorted`: scan every row; the row passes when each adjacent pair
of its `indices` slice is non-decreasing (`indices[i-1] > indices[i]`
flips the result).  The early-exit `if (!ret) continue` is absorbed by
`List.all`. -/
def CSRIsSorted (csr : CSRMatrix) : Bool :=
  (List.range csr.num_rows).all fun row =>
    (List.range' (csr.indptr.getD row 0 + 1)
        (csr.indptr.getD (row + 1) 0 - (csr.indptr.getD row 0 + 1))).all fun i =>
      csr.indices.getD (i - 1) 0 ≤ csr.indices.getD i 0

/-- `CSRSort_`: when `data` is absent it is first materialised as
`Range(0, nnz)`; then every row's `(column, eid)` pairs are sorted by
column and written back in place, and `sorted` is set.  `std::sort` with
comparator `e1.first < e2.first` is embedded as a stable merge sort on
the key; the in-place per-row writes are reconstructed by concatenating
the row blocks (exact for matrices satisfying `CSRWF`). -/
def CSRSort_ (csr : CSRMatrix) : CSRMatrix :=
  let nnz := csr.indices.length
  let eid := csr.data.getD (List.range nnz)
  let sortedRows := (List.range csr.num_rows).map fun row =>
    let s := csr.indptr.getD row 0
    let e := csr.indptr.getD (row + 1) 0
    let pairs := List.zip (rowSlice csr.indices s e) (rowSlice eid s e)
    pairs.mergeSort fun p q => p.1 ≤ q.1
  { csr with
    indices := (sortedRows.map (fun l => l.map Prod.fst)).flatten
    data := some ((sortedRows.map (fun l => l.map Prod.snd)).flatten)
    sorted := true }

/-! ## Block decompositions of flat arrays

A CSR matrix's flat `indices` array is the concatenation of its row
blocks; these lemmas recover a block from the flat array via `indptr`
offsets. -/

/-- Offset of block `k` inside the concatenation: sum of the lengths of
the blocks before it. -/
def blockOffset {α : Type} (B : List (List α)) (k : Nat) : Nat :=
  ((B.take k).map List.length).sum

theorem blockOffset_zero {α : Type} (B : List (List α)) : blockOffset B 0 = 0 := rfl

theorem blockOffset_cons {α : Type} (b : List α) (B : List (List α)) (k : Nat) :
    blockOffset (b :: B) (k + 1) = b.length + blockOffset B k := by
  simp [blockOffset, List.take_succ_cons]

theorem flatten_block_slice {α : Type} :
    ∀ (B : List (List α)) (k : Nat), k < B.length →
      (B.flatten.drop (blockOffset B k)).take (B.getD k []).length = B.getD k []
  | [], k, h => absurd h (by simp)
  | b :: B, 0, _ => by
      rw [List.getD_cons_zero, blockOffset_zero, List.drop_zero, List.flatten_cons]
      exact List.take_left b B.flatten
  | b :: B, k + 1, h => by
      have hk : k < B.length := by simpa using h
      rw [blockOffset_cons, List.getD_cons_succ, List.flatten_cons, List.drop_append]
      exact flatten_block_slice B k hk

theorem blockOffset_succ {α : Type} (B : List (List α)) (k : Nat) (h : k < B.length) :
    blockOffset B (k + 1) = blockOffset B k + (B.getD k []).length := by
  unfold blockOffset
  rw [List.take_succ, List.map_append, List.sum_append]
  have : B[k]? = some B[k] := List.getElem?_eq_getElem h
  simp [this, List.getD_eq_getElem B [] h]

theorem blockOffset_length {α : Type} (B : List (List α)) :
    blockOffset B B.length = B.flatten.length := by
  simp [blockOffset, List.length_flatten, List.take_length]

theorem getD_map_range {α : Type} (f : Nat → α) (N k : Nat) (d : α) (h : k < N) :
    ((List.range N).map f).getD k d = f k := by
  have hlen : k < ((List.range N).map f).length := by simpa using h
  rw [List.getD_eq_getElem _ _ hlen]
  simp

theorem rowSlice_length {α : Type} (l : List α) (s e : Nat) (hse : s ≤ e)
    (hel : e ≤ l.length) : (rowSlice l s e).length = e - s := by
  simp only [rowSlice, List.length_take, List.length_drop]
  omega

/-! ## Monotone indptr arithmetic -/

theorem indptr_mono_le (p : List Nat) (N : Nat)
    (hmono : ∀ r, r < N → p.getD r 0 ≤ p.getD (r + 1) 0) :
    ∀ d r, r + d ≤ N → p.getD r 0 ≤ p.getD (r + d) 0
  | 0, _, _ => le_refl _
  | d + 1, r, h => by
      have h1 : r + d < N := by omega
      have h2 : p.getD r 0 ≤ p.getD (r + d) 0 :=
        indptr_mono_le p N hmono d r (by omega)
      exact le_trans h2 (hmono _ h1)

theorem indptr_le_of_le (p : List Nat) (N : Nat)
    (hmono : ∀ r, r < N → p.getD r 0 ≤ p.getD (r + 1) 0)
    (r s : Nat) (hrs : r ≤ s) (hsN : s ≤ N) : p.getD r 0 ≤ p.getD s 0 := by
  have := indptr_mono_le p N hmono (s - r) r (by omega)
  rwa [Nat.add_sub_cancel' hrs] at this

theorem indptr_eq_blockOffset {α : Type} (p : List Nat) (N : Nat) (B : List (List α))
    (h0 : p.getD 0 0 = 0)
    (hmono : ∀ r, r < N → p.getD r 0 ≤ p.getD (r + 1) 0)
    (hB : B.length = N)
    (hlen : ∀ k, k < N → (B.getD k []).length = p.getD (k + 1) 0 - p.getD k 0) :
    ∀ k, k ≤ N → blockOffset B k = p.getD k 0
  | 0, _ => by rw [blockOffset_zero, h0]
  | k + 1, h => by
      have hkN : k < N := by omega
      rw [blockOffset_succ B k (by omega), indptr_eq_blockOffset p N B h0 hmono hB hlen k (by omega),
        hlen k hkN]
      have := hmono k hkN
      omega

/-- Recover row block `k` of a block concatenation from `indptr` offsets. -/
theorem rowSlice_flatten_eq {α : Type} (p : List Nat) (N : Nat) (B : List (List α))
    (h0 : p.getD 0 0 = 0)
    (hmono : ∀ r, r < N → p.getD r 0 ≤ p.getD (r + 1) 0)
    (hB : B.length = N)
    (hlen : ∀ k, k < N → (B.getD k []).length = p.getD (k + 1) 0 - p.getD k 0)
    (k : Nat) (hk : k < N) :
    rowSlice B.flatten (p.getD k 0) (p.getD (k + 1) 0) = B.getD k [] := by
  unfold rowSlice
  rw [← indptr_eq_blockOffset p N B h0 hmono hB hlen k (le_of_lt hk)]
  have hd : p.getD (k + 1) 0 - p.getD k 0 = (B.getD k []).length := (hlen k hk).symm
  rw [← indptr_eq_blockOffset p N B h0 hmono hB hlen k (le_of_lt hk)] at hd
  rw [hd]
  exact flatten_block_slice B k (by omega)

theorem flatten_length_of_indptr {α : Type} (p : List Nat) (N : Nat) (B : List (List α))
    (h0 : p.getD 0 0 = 0)
    (hmono : ∀ r, r < N → p.getD r 0 ≤ p.getD (r + 1) 0)
    (hB : B.length = N)
    (hlen : ∀ k, k < N → (B.getD k []).length = p.getD (k + 1) 0 - p.getD k 0) :
    B.flatten.length = p.getD N 0 := by
  rw [← blockOffset_length, hB, indptr_eq_blockOffset p N B h0 hmono hB hlen N (le_refl N)]

/-! ## Structure of CSRSort_ -/

theorem eids_length (csr : CSRMatrix) (hwf : CSRWF csr) :
    (csr.data.getD (List.range csr.indices.length)).length = csr.indices.length := by
  obtain ⟨-, -, -, -, hdata⟩ := hwf
  cases hd : csr.data with
  | none => simp
  | some d => simpa using hdata d hd

/-- The `(column, eid)` pairs of row `k`, sorted by column: the per-row
reorder buffer of `CSRSort_`. -/
def sortedRowPairs (csr : CSRMatrix) (k : Nat) : List (Nat × Nat) :=
  (List.zip (rowSlice csr.indices (csr.indptr.getD k 0) (csr.indptr.getD (k + 1) 0))
    (rowSlice (csr.data.getD (List.range csr.indices.length)) (csr.indptr.getD k 0)
      (csr.indptr.getD (k + 1) 0))).mergeSort fun p q => p.1 ≤ q.1

theorem sortedRowPairs_length (csr : CSRMatrix) (hwf : CSRWF csr) (k : Nat)
    (hk : k < csr.num_rows) :
    (sortedRowPairs csr k).length = csr.indptr.getD (k + 1) 0 - csr.indptr.getD k 0 := by
  obtain ⟨hlen, h0, hN, hmono, hdata⟩ := hwf
  have hse : csr.indptr.getD k 0 ≤ csr.indptr.getD (k + 1) 0 := hmono k hk
  have heN : csr.indptr.getD (k + 1) 0 ≤ csr.indices.length := by
    rw [← hN]
    exact indptr_le_of_le csr.indptr csr.num_rows hmono (k + 1) csr.num_rows hk (le_refl _)
  have hind : (rowSlice csr.indices (csr.indptr.getD k 0) (csr.indptr.getD (k + 1) 0)).length
      = csr.indptr.getD (k + 1) 0 - csr.indptr.getD k 0 :=
    rowSlice_length _ _ _ hse heN
  have heid : (rowSlice (csr.data.getD (List.range csr.indices.length))
      (csr.indptr.getD k 0) (csr.indptr.getD (k + 1) 0)).length
      = csr.indptr.getD (k + 1) 0 - csr.indptr.getD k 0 := by
    rw [rowSlice_length]
    · exact hse
    · rw [eids_length csr ⟨hlen, h0, hN, hmono, hdata⟩]
      exact heN
  unfold sortedRowPairs
  rw [List.length_mergeSort, List.length_zip, hind, heid, min_self]

theorem CSRSort_eq_flatten (csr : CSRMatrix) :
    CSRSort_ csr =
      { csr with
        indices := (((List.range csr.num_rows).map (sortedRowPairs csr)).map
          (fun l => l.map Prod.fst)).flatten
        data := some ((((List.range csr.num_rows).map (sortedRowPairs csr)).map
          (fun l => l.map Prod.snd)).flatten)
        sorted := true } := rfl

theorem CSRSort_indptr (csr : CSRMatrix) : (CSRSort_ csr).indptr = csr.indptr := rfl

theorem CSRSort_num_rows (csr : CSRMatrix) : (CSRSort_ csr).num_rows = csr.num_rows := rfl

theorem CSRSort_indices_slice (csr : CSRMatrix) (hwf : CSRWF csr) (k : Nat)
    (hk : k < csr.num_rows) :
    rowSlice (CSRSort_ csr).indices (csr.indptr.getD k 0) (csr.indptr.getD (k + 1) 0)
      = (sortedRowPairs csr k).map Prod.fst := by
  obtain ⟨hlen, h0, hN, hmono, hdata⟩ := hwf
  rw [CSRSort_eq_flatten]
  have hB : (((List.range csr.num_rows).map (sortedRowPairs csr)).map
      (fun l => l.map Prod.fst)).length = csr.num_rows := by simp
  have hcollapse : (((List.range csr.num_rows).map (sortedRowPairs csr)).map
      (fun l => l.map Prod.fst)) = (List.range csr.num_rows).map
      (fun k => (sortedRowPairs csr k).map Prod.fst) := by
    rw [List.map_map]; rfl
  rw [hcollapse] at hB ⊢
  have hlens : ∀ j, j < csr.num_rows →
      ((((List.range csr.num_rows).map
        (fun k => (sortedRowPairs csr k).map Prod.fst)).getD j []).length
        = csr.indptr.getD (j + 1) 0 - csr.indptr.getD j 0) := by
    intro j hj
    rw [getD_map_range _ _ _ _ hj, List.length_map]
    exact sortedRowPairs_length csr ⟨hlen, h0, hN, hmono, hdata⟩ j hj
  have := rowSlice_flatten_eq csr.indptr csr.num_rows
    ((List.range csr.num_rows).map (fun k => (sortedRowPairs csr k).map Prod.fst))
    h0 hmono hB hlens k hk
  rw [this, getD_map_range _ _ _ _ hk]

theorem CSRSort_data_slice (csr : CSRMatrix) (hwf : CSRWF csr) (k : Nat)
    (hk : k < csr.num_rows) :
    rowSlice ((CSRSort_ csr).data.getD []) (csr.indptr.getD k 0) (csr.indptr.getD (k + 1) 0)
      = (sortedRowPairs csr k).map Prod.snd := by
  obtain ⟨hlen, h0, hN, hmono, hdata⟩ := hwf
  rw [CSRSort_eq_flatten]
  have hcollapse : (((List.range csr.num_rows).map (sortedRowPairs csr)).map
      (fun l => l.map Prod.snd)) = (List.range csr.num_rows).map
      (fun k => (sortedRowPairs csr k).map Prod.snd) := by
    rw [List.map_map]; rfl
  show rowSlice ((((List.range csr.num_rows).map (sortedRowPairs csr)).map
      (fun l => l.map Prod.snd)).flatten) _ _ = _
  rw [hcollapse]
  have hB : ((List.range csr.num_rows).map
      (fun k => (sortedRowPairs csr k).map Prod.snd)).length = csr.num_rows := by simp
  have hlens : ∀ j, j < csr.num_rows →
      ((((List.range csr.num_rows).map
        (fun k => (sortedRowPairs csr k).map Prod.snd)).getD j []).length
        = csr.indptr.getD (j + 1) 0 - csr.indptr.getD j 0) := by
    intro j hj
    rw [getD_map_range _ _ _ _ hj, List.length_map]
    exact sortedRowPairs_length csr ⟨hlen, h0, hN, hmono, hdata⟩ j hj
  have := rowSlice_flatten_eq csr.indptr csr.num_rows
    ((List.range csr.num_rows).map (fun k => (sortedRowPairs csr k).map Prod.snd))
    h0 hmono hB hlens k hk
  rw [this, getD_map_range _ _ _ _ hk]

theorem CSRSort_WF (csr : CSRMatrix) (hwf : CSRWF csr) : CSRWF (CSRSort_ csr) := by
  obtain ⟨hlen, h0, hN, hmono, hdata⟩ := hwf
  have hflat : ∀ (g : Nat × Nat → Nat),
      (((List.range csr.num_rows).map (fun k => (sortedRowPairs csr k).map g)).flatten).length
        = csr.indptr.getD csr.num_rows 0 := by
    intro g
    apply flatten_length_of_indptr csr.indptr csr.num_rows _ h0 hmono (by simp)
    intro j hj
    rw [getD_map_range _ _ _ _ hj, List.length_map]
    exact sortedRowPairs_length csr ⟨hlen, h0, hN, hmono, hdata⟩ j hj
  have hcoll : ∀ (g : Nat × Nat → Nat),
      (((List.range csr.num_rows).map (sortedRowPairs csr)).map (fun l => l.map g))
        = (List.range csr.num_rows).map (fun k => (sortedRowPairs csr k).map g) := by
    intro g; rw [List.map_map]; rfl
  have hilen : (CSRSort_ csr).indices.length = csr.indices.length := by
    rw [CSRSort_eq_flatten]
    show (((List.range csr.num_rows).map (sortedRowPairs csr)).map
      (fun l => l.map Prod.fst)).flatten.length = _
    rw [hcoll Prod.fst, hflat Prod.fst, hN]
  refine ⟨?_, ?_, ?_, ?_, ?_⟩
  · rw [CSRSort_indptr]; exact hlen
  · rw [CSRSort_indptr]; exact h0
  · rw [CSRSort_indptr, CSRSort_num_rows, hilen, hN]
  · rw [CSRSort_indptr, CSRSort_num_rows]; exact hmono
  · intro d hd
    rw [CSRSort_eq_flatten] at hd
    simp only at hd
    rw [hilen, ← hN]
    have : d = (((List.range csr.num_rows).map (sortedRowPairs csr)).map
        (fun l => l.map Prod.snd)).flatten := by
      exact (Option.some.injEq _ _ ▸ hd).symm
    rw [this, hcoll Prod.snd, hflat Prod.snd]

/-! ## Sortedness of CSRSort_ rows, and the CSRIsSorted characterisation -/

theorem sortedRowPairs_pairwise (csr : CSRMatrix) (k : Nat) :
    List.Pairwise (fun a b : Nat × Nat => (decide (a.1 ≤ b.1)) = true)
      (sortedRowPairs csr k) := by
  unfold sortedRowPairs
  apply List.sorted_mergeSort
  · intro a b c hab hbc
    simp only [decide_eq_true_iff] at *
    omega
  · intro a b
    simp only [Bool.or_eq_true, decide_eq_true_iff]
    omega

theorem sortedRowPairs_chain (csr : CSRMatrix) (k : Nat) :
    List.Chain' (· ≤ ·) ((sortedRowPairs csr k).map Prod.fst) := by
  rw [List.chain'_iff_pairwise, List.pairwise_map]
  exact (sortedRowPairs_pairwise csr k).imp fun h => by simpa using h

/-- The inner adjacent-pair scan of `CSRIsSorted` over absolute positions
`[s+1, e)` succeeds exactly when the row's slice is non-decreasing. -/
theorem innerAll_iff_chain (l : List Nat) (s e : Nat) (hse : s ≤ e) (hel : e ≤ l.length) :
    ((List.range' (s + 1) (e - (s + 1))).all fun i =>
      l.getD (i - 1) 0 ≤ l.getD i 0) = true ↔
      List.Chain' (· ≤ ·) (rowSlice l s e) := by
  have hslen : (rowSlice l s e).length = e - s := rowSlice_length l s e hse hel
  rw [List.all_eq_true, List.chain'_iff_get]
  have hget : ∀ (j : Nat) (h : j < (rowSlice l s e).length),
      (rowSlice l s e).get ⟨j, h⟩ = l.get ⟨s + j, by omega⟩ := by
    intro j h
    have hj : j < e - s := by omega
    simp only [rowSlice] at h ⊢
    rw [List.get_eq_getElem, List.get_eq_getElem, List.getElem_take, List.getElem_drop]
  constructor
  · intro h j hj
    rw [hget, hget]
    have hmem : s + j + 1 ∈ List.range' (s + 1) (e - (s + 1)) := by
      rw [List.mem_range'_1]
      omega
    have := h (s + j + 1) hmem
    rw [decide_eq_true_iff] at this
    have h1 : s + j + 1 - 1 = s + j := by omega
    rw [h1] at this
    rw [List.getD_eq_getElem l 0 (by omega), List.getD_eq_getElem l 0 (by omega)] at this
    exact this
  · intro h i hi
    rw [List.mem_range'_1] at hi
    have hie : i < e := by omega
    have hj : i - 1 - s < (rowSlice l s e).length - 1 := by omega
    have := h (i - 1 - s) hj
    rw [hget, hget, List.get_eq_getElem, List.get_eq_getElem] at this
    simp only [Fin.val_mk] at this
    rw [decide_eq_true_iff]
    have h1 : s + (i - 1 - s) = i - 1 := by omega
    have h2 : s + (i - 1 - s) + 1 = i := by omega
    rw [List.getD_eq_getElem l 0 (by omega), List.getD_eq_getElem l 0 (by omega)]
    convert this using 2 <;> omega

theorem CSRIsSorted_iff (csr : CSRMatrix) (hwf : CSRWF csr) :
    CSRIsSorted csr = true ↔ ∀ r, r < csr.num_rows →
      List.Chain' (· ≤ ·)
        (rowSlice csr.indices (csr.indptr.getD r 0) (csr.indptr.getD (r + 1) 0)) := by
  obtain ⟨hlen, h0, hN, hmono, hdata⟩ := hwf
  unfold CSRIsSorted
  rw [List.all_eq_true]
  have hbounds : ∀ r, r < csr.num_rows →
      csr.indptr.getD r 0 ≤ csr.indptr.getD (r + 1) 0 ∧
      csr.indptr.getD (r + 1) 0 ≤ csr.indices.length := by
    intro r hr
    refine ⟨hmono r hr, ?_⟩
    rw [← hN]
    exact indptr_le_of_le csr.indptr csr.num_rows hmono (r + 1) csr.num_rows hr (le_refl _)
  constructor
  · intro h r hr
    obtain ⟨hse, hel⟩ := hbounds r hr
    exact (innerAll_iff_chain csr.indices _ _ hse hel).mp (h r (List.mem_range.mpr hr))
  · intro h r hr
    rw [List.mem_range] at hr
    obtain ⟨hse, hel⟩ := hbounds r hr
    exact (innerAll_iff_chain csr.indices _ _ hse hel).mpr (h r hr)

/-! ## Idempotence layer -/

theorem CSRMatrix.ext' (a b : CSRMatrix) (h1 : a.num_rows = b.num_rows)
    (h2 : a.num_cols = b.num_cols) (h3 : a.indptr = b.indptr)
    (h4 : a.indices = b.indices) (h5 : a.data = b.data)
    (h6 : a.sorted = b.sorted) : a = b := by
  cases a; cases b; simp_all

theorem sortedRowPairs_CSRSort (csr : CSRMatrix) (hwf : CSRWF csr) (k : Nat)
    (hk : k < csr.num_rows) :
    sortedRowPairs (CSRSort_ csr) k = sortedRowPairs csr k := by
  have hidxslice := CSRSort_indices_slice csr hwf k hk
  have hdslice := CSRSort_data_slice csr hwf k hk
  have hdata_eq : (CSRSort_ csr).data.getD (List.range (CSRSort_ csr).indices.length)
      = (CSRSort_ csr).data.getD [] := by
    rw [CSRSort_eq_flatten]
    simp
  conv_lhs => unfold sortedRowPairs
  rw [CSRSort_indptr, hdata_eq, hdslice, hidxslice]
  have hz : List.zip ((sortedRowPairs csr k).map Prod.fst)
      ((sortedRowPairs csr k).map Prod.snd) = sortedRowPairs csr k := by
    have h := List.zip_unzip (sortedRowPairs csr k)
    rwa [List.unzip_eq_map] at h
  rw [hz]
  exact List.mergeSort_of_sorted (sortedRowPairs_pairwise csr k)

/-- C4 (claim): after `Sort` every row is sorted and the `sorted` flag is
set, `IsSorted (Sort csr) = true`, `Sort` is idempotent, and `IsSorted`
returns true iff every row's `indices` slice is non-decreasing. -/
theorem C4_csr_sort_correct (csr : CSRMatrix) (hwf : CSRWF csr) :
    (CSRSort_ csr).sorted = true ∧
    CSRIsSorted (CSRSort_ csr) = true ∧
    CSRSort_ (CSRSort_ csr) = CSRSort_ csr ∧
    (CSRIsSorted csr = true ↔ ∀ r, r < csr.num_rows →
      List.Chain' (· ≤ ·)
        (rowSlice csr.indices (csr.indptr.getD r 0) (csr.indptr.getD (r + 1) 0))) := by
  have hwf' := CSRSort_WF csr hwf
  have hrows : ∀ k ∈ List.range csr.num_rows,
      sortedRowPairs (CSRSort_ csr) k = sortedRowPairs csr k := by
    intro k hk
    exact sortedRowPairs_CSRSort csr hwf k (List.mem_range.mp hk)
  have hmapeq : (List.range csr.num_rows).map (sortedRowPairs (CSRSort_ csr))
      = (List.range csr.num_rows).map (sortedRowPairs csr) :=
    List.map_congr_left hrows
  refine ⟨rfl, ?_, ?_, CSRIsSorted_iff csr hwf⟩
  · rw [CSRIsSorted_iff (CSRSort_ csr) hwf']
    intro r hr
    rw [CSRSort_num_rows] at hr
    rw [CSRSort_indptr, CSRSort_indices_slice csr hwf r hr]
    exact sortedRowPairs_chain csr r
  · refine CSRMatrix.ext' (CSRSort_ (CSRSort_ csr)) (CSRSort_ csr) rfl rfl rfl ?_ ?_ rfl
    · rw [CSRSort_eq_flatten (CSRSort_ csr)]
      show ((((List.range (CSRSort_ csr).num_rows).map (sortedRowPairs (CSRSort_ csr))).map
        (fun l => l.map Prod.fst)).flatten) = _
      rw [CSRSort_num_rows, hmapeq]
      rfl
    · rw [CSRSort_eq_flatten (CSRSort_ csr)]
      show some ((((List.range (CSRSort_ csr).num_rows).map (sortedRowPairs (CSRSort_ csr))).map
        (fun l => l.map Prod.snd)).flatten) = _
      rw [CSRSort_num_rows, hmapeq]
      rfl

/-- Witness for C4 at a concrete 2x3 matrix with an unsorted first row. -/
theorem C4_csr_sort_correct_witness :
    CSRWF ⟨2, 3, [0, 2, 3], [2, 0, 1], none, false⟩ ∧
    CSRIsSorted (CSRSort_ ⟨2, 3, [0, 2, 3], [2, 0, 1], none, false⟩) = true := by
  have h : CSRWF ⟨2, 3, [0, 2, 3], [2, 0, 1], none, false⟩ := by
    refine ⟨rfl, rfl, rfl, ?_, ?_⟩
    · intro r hr
      interval_cases r <;> simp
    · intro d hd
      simp at hd
  exact ⟨h, (C4_csr_sort_correct ⟨2, 3, [0, 2, 3], [2, 0, 1], none, false⟩ h).2.1⟩

/-! ## Stable bucket partition (CSRSortByTag, COOToCSR counting sort)

The placement loops of csr_sort.cc / spmat_op_impl_coo.cc write entry
after entry at `base[tag] + pointer[tag]++`, i.e. they append each entry
at the current end of its bucket.  `bucketAppend` is that operational
step; its buckets are then proved to be the order-preserving filters. -/

def bucketAppend {α : Type} (T : Nat) (key : α → Nat) (l : List α) : List (List α) :=
  l.foldl (fun acc a => acc.set (key a) (acc.getD (key a) [] ++ [a])) (List.replicate T [])

theorem map_range_set {α : Type} (g : Nat → α) (T k : Nat) (v : α) (hk : k < T) :
    ((List.range T).map g).set k v = (List.range T).map fun t => if t = k then v else g t := by
  apply List.ext_getElem
  · simp
  · intro i h1 h2
    have hi : i < T := by simpa using h2
    by_cases hik : i = k
    · subst hik
      rw [List.getElem_set_self]
      simp
    · rw [List.getElem_set_ne (fun h => hik h.symm)]
      simp [hik]

theorem bucketAppend_general {α : Type} (T : Nat) (key : α → Nat) :
    ∀ (l : List α) (g : Nat → List α), (∀ a ∈ l, key a < T) →
      l.foldl (fun acc a => acc.set (key a) (acc.getD (key a) [] ++ [a]))
          ((List.range T).map g)
        = (List.range T).map fun t => g t ++ l.filter fun a => key a = t
  | [], g, _ => by
      simp only [List.foldl_nil, List.filter_nil, List.append_nil]
  | a :: l, g, h => by
      rw [List.foldl_cons]
      have hk : key a < T := h a (by simp)
      rw [getD_map_range g T (key a) [] hk, map_range_set g T (key a) _ hk,
        bucketAppend_general T key l _ (fun b hb => h b (by simp [hb]))]
      apply List.map_congr_left
      intro t _
      by_cases htk : t = key a
      · subst htk
        rw [if_pos rfl, List.filter_cons, if_pos (by simp), List.append_assoc,
          List.singleton_append]
      · rw [if_neg htk, List.filter_cons, if_neg (by simpa using fun h => htk h.symm)]

theorem bucketAppend_eq_filters {α : Type} (T : Nat) (key : α → Nat) (l : List α)
    (h : ∀ a ∈ l, key a < T) :
    bucketAppend T key l = (List.range T).map fun t => l.filter fun a => key a = t := by
  unfold bucketAppend
  have hrep : (List.replicate T ([] : List α)) = (List.range T).map fun _ => [] := by
    rw [List.map_const']
    simp
  rw [hrep, bucketAppend_general T key l _ h]
  simp

theorem sum_ite_eq_range (T k c : Nat) :
    ((List.range T).map fun t => if k = t then c else 0).sum = if k < T then c else 0 := by
  induction T with
  | zero => simp
  | succ T ih =>
      rw [List.range_succ, List.map_append, List.sum_append, ih]
      by_cases hkT : k = T
      · subst hkT
        simp [Nat.lt_irrefl]
      · by_cases hlt : k < T
        · rw [if_pos hlt, if_pos (by omega)]
          simp [hkT]
        · rw [if_neg hlt, if_neg (by omega)]
          simp [hkT]

/-- A list is a permutation of its bucket decomposition. -/
theorem perm_flatten_filters {α : Type} [DecidableEq α] (T : Nat) (key : α → Nat)
    (l : List α) (h : ∀ a ∈ l, key a < T) :
    l.Perm (((List.range T).map fun t => l.filter fun a => key a = t).flatten) := by
  rw [List.perm_iff_count]
  intro a
  rw [List.count_flatten, List.map_map]
  have hcnt : ∀ t, List.count a (l.filter fun b => key b = t)
      = if key a = t then List.count a l else 0 := by
    intro t
    by_cases hka : key a = t
    · rw [if_pos hka]
      exact List.count_filter (by simpa using hka)
    · rw [if_neg hka]
      rw [List.count_eq_zero]
      intro hmem
      have := List.of_mem_filter hmem
      simp at this
      exact hka this
  have hmapeq : (List.range T).map ((List.count a) ∘ fun t => l.filter fun b => key b = t)
      = (List.range T).map fun t => if key a = t then List.count a l else 0 :=
    List.map_congr_left fun t _ => hcnt t
  rw [hmapeq, sum_ite_eq_range]
  by_cases hmem : a ∈ l
  · rw [if_pos (h a hmem)]
  · rw [List.count_eq_zero.mpr hmem]
    simp

/-! ## Prefix sums (the cumulate loops producing indptr / tag_position) -/

theorem scanl_add_getD :
    ∀ (l : List Nat) (a k : Nat), k ≤ l.length →
      (l.scanl (· + ·) a).getD k 0 = a + (l.take k).sum
  | l, a, 0, _ => by
      cases l <;> simp [List.scanl_nil, List.scanl_cons]
  | [], _, k + 1, h => by simp at h
  | x :: l, a, k + 1, h => by
      rw [List.scanl_cons, List.singleton_append, List.getD_cons_succ,
        scanl_add_getD l (a + x) k (by simpa using h), List.take_succ_cons,
        List.sum_cons]
      omega

theorem sum_take_succ_getD (l : List Nat) (k : Nat) (h : k < l.length) :
    (l.take (k + 1)).sum = (l.take k).sum + l.getD k 0 := by
  rw [List.take_succ, List.sum_append, List.getElem?_eq_getElem h,
    List.getD_eq_getElem l 0 h]
  simp

/-! ## CSRSortByTag (array/cpu/csr_sort.cc) -/

/-- The `(column, eid)` pairs of row `r` of a CSR matrix with edge ids
from the `data` array, or the implicit identity ids when it is absent:
the `has_idx ? edges[j] : j` convention of the kernels, and what the
`eid_array` built on csr_sort.cc lines 86-87 holds. -/
def rowEntries (csr : CSRMatrix) (r : Nat) : List (Nat × Nat) :=
  List.zip (rowSlice csr.indices (csr.indptr.getD r 0) (csr.indptr.getD (r + 1) 0))
    (rowSlice (csr.data.getD (List.range csr.indices.length)) (csr.indptr.getD r 0)
      (csr.indptr.getD (r + 1) 0))

/-- The `(column, eid)` pairs of row `r` as `CSRSortByTag` actually reads
them: `eid_data` is taken from `csr->data->data` unconditionally
(csr_sort.cc line 88) — the identity `eid_array` built on lines 86-87 for
data-absent matrices is never read.  When `data` is absent that pointer
read is undefined behaviour; the embedding pairs the columns with zeros
there, a branch no theorem relies on. -/
def dataEntries (csr : CSRMatrix) (r : Nat) : List (Nat × Nat) :=
  List.zip (rowSlice csr.indices (csr.indptr.getD r 0) (csr.indptr.getD (r + 1) 0))
    (rowSlice (csr.data.getD (List.replicate csr.indices.length 0)) (csr.indptr.getD r 0)
      (csr.indptr.getD (r + 1) 0))

/-- On a CSR that carries a `data` array the unconditional `csr->data->data`
read agrees with the edge-id array: `dataEntries` and `rowEntries`
coincide. -/
theorem dataEntries_eq_rowEntries (csr : CSRMatrix) (hdat : CSRHasData csr = true) :
    dataEntries csr = rowEntries csr := by
  funext r
  unfold CSRHasData at hdat
  obtain ⟨d, hd⟩ := Option.isSome_iff_exists.mp hdat
  unfold dataEntries rowEntries
  rw [hd]
  rfl

theorem rowEntries_length (csr : CSRMatrix) (hwf : CSRWF csr) (k : Nat)
    (hk : k < csr.num_rows) :
    (rowEntries csr k).length = csr.indptr.getD (k + 1) 0 - csr.indptr.getD k 0 := by
  obtain ⟨hlen, h0, hN, hmono, hdata⟩ := hwf
  have hse : csr.indptr.getD k 0 ≤ csr.indptr.getD (k + 1) 0 := hmono k hk
  have heN : csr.indptr.getD (k + 1) 0 ≤ csr.indices.length := by
    rw [← hN]
    exact indptr_le_of_le csr.indptr csr.num_rows hmono (k + 1) csr.num_rows hk (le_refl _)
  unfold rowEntries
  rw [List.length_zip, rowSlice_length _ _ _ hse heN, rowSlice_length _ _ _ hse
    (by rw [eids_length csr ⟨hlen, h0, hN, hmono, hdata⟩]; exact heN), min_self]

/-- Per-row cumulative bucket boundaries `tag_pos_row`: zero-initialised
counters cumulated by `tag_pos_row[tag] += tag_pos_row[tag-1]`, giving
`tag_pos_row[t] = `size of buckets `< t`.  The counting loop reads only
`indices_data` and `tag_data`, never `eid_data`, so only the `.1`
components of the entries are consulted. -/
def tagPosRow (csr : CSRMatrix) (tag : List Nat) (num_tags : Nat) (r : Nat) : List Nat :=
  List.scanl (· + ·) 0
    ((bucketAppend num_tags (fun e => tag.getD e.1 0) (dataEntries csr r)).map List.length)

/-- `CSRSortByTag`: per row, counts entries per tag, cumulates counts
into `num_tags+1` boundary offsets, and places each `(dst, eid)` entry at
`tag_pos_row[tag] + pointer[tag]++` (an append at the end of its tag's
bucket).  `CHECK_LT(tag, num_tags)` aborts on the first out-of-range tag;
the output CSR shares `indptr` and gets `sorted = false`.  Edge ids are
read through `dataEntries`, i.e. from `csr->data->data` (csr_sort.cc:88),
which is well defined only when the CSR carries a `data` array. -/
def CSRSortByTag (csr : CSRMatrix) (tag : List Nat) (num_tags : Nat) :
    Except String (List (List Nat) × CSRMatrix) :=
  if (List.range csr.num_rows).all (fun r =>
      (dataEntries csr r).all fun e => tag.getD e.1 0 < num_tags) then
    .ok ((List.range csr.num_rows).map (tagPosRow csr tag num_tags),
      { csr with
        indices := ((List.range csr.num_rows).map fun r =>
          ((bucketAppend num_tags (fun e => tag.getD e.1 0)
            (dataEntries csr r)).flatten.map Prod.fst)).flatten
        data := some (((List.range csr.num_rows).map fun r =>
          ((bucketAppend num_tags (fun e => tag.getD e.1 0)
            (dataEntries csr r)).flatten.map Prod.snd)).flatten)
        sorted := false })
  else .error "Check failed: tag < num_tags"

/-- Row `r` of a CSR matrix rebuilt from per-row `(col, eid)` blocks is
block `r` itself, provided block lengths match `indptr` row widths. -/
theorem rowEntries_of_blocks (csr : CSRMatrix) (hwf : CSRWF csr)
    (f : Nat → List (Nat × Nat))
    (hf : ∀ j, j < csr.num_rows →
      (f j).length = csr.indptr.getD (j + 1) 0 - csr.indptr.getD j 0)
    (r : Nat) (hr : r < csr.num_rows) :
    rowEntries { csr with
        indices := ((List.range csr.num_rows).map fun j => (f j).map Prod.fst).flatten
        data := some (((List.range csr.num_rows).map fun j => (f j).map Prod.snd).flatten)
        sorted := false } r = f r := by
  obtain ⟨hlen, h0, hmax, hmono, hdata⟩ := hwf
  unfold rowEntries
  show List.zip
      (rowSlice (((List.range csr.num_rows).map fun j => (f j).map Prod.fst).flatten)
        (csr.indptr.getD r 0) (csr.indptr.getD (r + 1) 0))
      (rowSlice (((List.range csr.num_rows).map fun j => (f j).map Prod.snd).flatten)
        (csr.indptr.getD r 0) (csr.indptr.getD (r + 1) 0)) = f r
  have hlens : ∀ (g : Nat × Nat → Nat) (j : Nat), j < csr.num_rows →
      ((((List.range csr.num_rows).map fun j => (f j).map g).getD j []).length
        = csr.indptr.getD (j + 1) 0 - csr.indptr.getD j 0) := by
    intro g j hj
    rw [getD_map_range _ _ _ _ hj, List.length_map]
    exact hf j hj
  rw [rowSlice_flatten_eq csr.indptr csr.num_rows _ h0 hmono (by simp)
      (hlens Prod.fst) r hr,
    rowSlice_flatten_eq csr.indptr csr.num_rows _ h0 hmono (by simp)
      (hlens Prod.snd) r hr,
    getD_map_range _ _ _ _ hr, getD_map_range _ _ _ _ hr]
  have h := List.zip_unzip (f r)
  rwa [List.unzip_eq_map] at h

/-- Post-condition of a successful `CSRSortByTag` call: the boundary table
has `num_tags+1` non-decreasing offsets per row whose differences are the
bucket sizes, and bucket `t` of each output row is the order-preserving
filter of the row's entries whose destination's tag is `t`. -/
def SortByTagPost (csr : CSRMatrix) (tag : List Nat) (T : Nat)
    (tp : List (List Nat)) (out : CSRMatrix) : Prop :=
  tp.length = csr.num_rows ∧
  out.indptr = csr.indptr ∧
  out.num_rows = csr.num_rows ∧
  out.num_cols = csr.num_cols ∧
  ∀ r, r < csr.num_rows →
    (tp.getD r []).length = T + 1 ∧
    (tp.getD r []).getD 0 0 = 0 ∧
    (tp.getD r []).getD T 0 = (rowEntries csr r).length ∧
    ∀ t, t < T →
      (tp.getD r []).getD t 0 ≤ (tp.getD r []).getD (t + 1) 0 ∧
      (tp.getD r []).getD (t + 1) 0 - (tp.getD r []).getD t 0
        = ((rowEntries csr r).filter fun e => tag.getD e.1 0 = t).length ∧
      rowSlice (rowEntries out r) ((tp.getD r []).getD t 0) ((tp.getD r []).getD (t + 1) 0)
        = ((rowEntries csr r).filter fun e => tag.getD e.1 0 = t) ∧
      ∀ e ∈ rowSlice (rowEntries out r) ((tp.getD r []).getD t 0)
          ((tp.getD r []).getD (t + 1) 0), tag.getD e.1 0 = t

/-- C2 (claim): for a CSR that carries a `data` array (the only case in
which the unconditional `csr->data->data` edge-id read of csr_sort.cc:88
is defined — for a data-absent CSR the identity `eid_array` of lines
86-87 is computed but never read, and the output edge ids come from an
undefined pointer), `SortByTag` stable-partitions each row into
`num_tags` contiguous buckets ordered by tag, returns non-decreasing
cumulative boundary offsets whose differences are the bucket sizes,
every entry of bucket `t` has `tag[dst] = t`, and the call fails when
any entry's tag is `>= num_tags`. -/
theorem C2_sortByTag_correct (csr : CSRMatrix) (tag : List Nat) (T : Nat)
    (hwf : CSRWF csr) (hdat : CSRHasData csr = true) :
    ((∀ r, r < csr.num_rows → ∀ e ∈ rowEntries csr r, tag.getD e.1 0 < T) →
      ∃ tp out, CSRSortByTag csr tag T = .ok (tp, out) ∧ SortByTagPost csr tag T tp out) ∧
    ((¬ ∀ r, r < csr.num_rows → ∀ e ∈ rowEntries csr r, tag.getD e.1 0 < T) →
      CSRSortByTag csr tag T = .error "Check failed: tag < num_tags") := by
  have hde : dataEntries csr = rowEntries csr := dataEntries_eq_rowEntries csr hdat
  constructor
  · intro hvalid
    have hcond : ((List.range csr.num_rows).all fun r =>
        (rowEntries csr r).all fun e => tag.getD e.1 0 < T) = true := by
      rw [List.all_eq_true]
      intro r hrmem
      rw [List.all_eq_true]
      intro e he
      exact decide_eq_true (hvalid r (List.mem_range.mp hrmem) e he)
    refine ⟨(List.range csr.num_rows).map (tagPosRow csr tag T),
      { csr with
        indices := ((List.range csr.num_rows).map fun r =>
          ((bucketAppend T (fun e => tag.getD e.1 0)
            (rowEntries csr r)).flatten.map Prod.fst)).flatten
        data := some (((List.range csr.num_rows).map fun r =>
          ((bucketAppend T (fun e => tag.getD e.1 0)
            (rowEntries csr r)).flatten.map Prod.snd)).flatten)
        sorted := false },
      by unfold CSRSortByTag; simp only [hde]; rw [if_pos hcond], ?_, rfl, rfl, rfl, ?_⟩
    · simp
    intro r hr
    have htp : ((List.range csr.num_rows).map (tagPosRow csr tag T)).getD r []
        = tagPosRow csr tag T r := getD_map_range _ _ _ _ hr
    have hBfilters : bucketAppend T (fun e => tag.getD e.1 0) (rowEntries csr r)
        = (List.range T).map fun t =>
          (rowEntries csr r).filter fun e => tag.getD e.1 0 = t :=
      bucketAppend_eq_filters T _ _ (hvalid r hr)
    have hBlen : (bucketAppend T (fun e => tag.getD e.1 0) (rowEntries csr r)).length = T := by
      rw [hBfilters]; simp
    have hszlen : ((bucketAppend T (fun e => tag.getD e.1 0)
        (rowEntries csr r)).map List.length).length = T := by
      rw [List.length_map, hBlen]
    have hperm : (rowEntries csr r).Perm
        ((bucketAppend T (fun e => tag.getD e.1 0) (rowEntries csr r)).flatten) := by
      rw [hBfilters]
      exact perm_flatten_filters T _ _ (hvalid r hr)
    have hflatlen : (bucketAppend T (fun e => tag.getD e.1 0)
        (rowEntries csr r)).flatten.length = (rowEntries csr r).length := hperm.length_eq.symm
    have hgetD : ∀ k, k ≤ T → (tagPosRow csr tag T r).getD k 0
        = (((bucketAppend T (fun e => tag.getD e.1 0)
          (rowEntries csr r)).map List.length).take k).sum := by
      intro k hk
      unfold tagPosRow
      simp only [hde]
      rw [scanl_add_getD _ _ _ (by rw [hszlen]; exact hk)]
      omega
    have hout : rowEntries
        { csr with
          indices := ((List.range csr.num_rows).map fun j =>
            ((bucketAppend T (fun e => tag.getD e.1 0)
              (rowEntries csr j)).flatten.map Prod.fst)).flatten
          data := some (((List.range csr.num_rows).map fun j =>
            ((bucketAppend T (fun e => tag.getD e.1 0)
              (rowEntries csr j)).flatten.map Prod.snd)).flatten)
          sorted := false } r
        = (bucketAppend T (fun e => tag.getD e.1 0) (rowEntries csr r)).flatten := by
      apply rowEntries_of_blocks csr hwf
        (fun j => (bucketAppend T (fun e => tag.getD e.1 0) (rowEntries csr j)).flatten)
        ?_ r hr
      intro j hj
      have hpermj : (rowEntries csr j).Perm
          ((bucketAppend T (fun e => tag.getD e.1 0) (rowEntries csr j)).flatten) := by
        rw [bucketAppend_eq_filters T _ _ (hvalid j hj)]
        exact perm_flatten_filters T _ _ (hvalid j hj)
      rw [← hpermj.length_eq]
      exact rowEntries_length csr hwf j hj
    have hsz_getD : ∀ t, t < T → ((bucketAppend T (fun e => tag.getD e.1 0)
        (rowEntries csr r)).map List.length).getD t 0
        = ((rowEntries csr r).filter fun e => tag.getD e.1 0 = t).length := by
      intro t ht
      have hb : t < ((bucketAppend T (fun e => tag.getD e.1 0)
          (rowEntries csr r)).map List.length).length := by rw [hszlen]; exact ht
      rw [List.getD_eq_getElem _ _ hb, List.getElem_map]
      congr 1
      have hb2 : t < (bucketAppend T (fun e => tag.getD e.1 0) (rowEntries csr r)).length := by
        rw [hBlen]; exact ht
      rw [← List.getD_eq_getElem _ ([] : List (Nat × Nat)) hb2, hBfilters,
        getD_map_range _ _ _ _ ht]
    have hlen1 : (tagPosRow csr tag T r).length = T + 1 := by
      unfold tagPosRow
      simp only [hde]
      rw [List.length_scanl, hszlen]
    refine ⟨by rw [htp]; exact hlen1, ?_, ?_, ?_⟩
    · rw [htp, hgetD 0 (by omega)]
      simp
    · have htake : List.take T ((bucketAppend T (fun e => tag.getD e.1 0)
          (rowEntries csr r)).map List.length)
          = (bucketAppend T (fun e => tag.getD e.1 0) (rowEntries csr r)).map List.length :=
        List.take_of_length_le (by rw [hszlen])
      rw [htp, hgetD T (le_refl T), htake, ← hflatlen, List.length_flatten]
    intro t ht
    have hd1 : (tagPosRow csr tag T r).getD t 0
        = (((bucketAppend T (fun e => tag.getD e.1 0)
          (rowEntries csr r)).map List.length).take t).sum := hgetD t (by omega)
    have hd2 : (tagPosRow csr tag T r).getD (t + 1) 0
        = (((bucketAppend T (fun e => tag.getD e.1 0)
          (rowEntries csr r)).map List.length).take (t + 1)).sum := hgetD (t + 1) (by omega)
    have hsucc := sum_take_succ_getD ((bucketAppend T (fun e => tag.getD e.1 0)
        (rowEntries csr r)).map List.length) t (by rw [hszlen]; exact ht)
    have hdiff : (tagPosRow csr tag T r).getD (t + 1) 0 - (tagPosRow csr tag T r).getD t 0
        = ((rowEntries csr r).filter fun e => tag.getD e.1 0 = t).length := by
      rw [hd1, hd2, hsucc, hsz_getD t ht]
      omega
    have hslice : rowSlice ((bucketAppend T (fun e => tag.getD e.1 0)
        (rowEntries csr r)).flatten) ((tagPosRow csr tag T r).getD t 0)
        ((tagPosRow csr tag T r).getD (t + 1) 0)
        = ((rowEntries csr r).filter fun e => tag.getD e.1 0 = t) := by
      unfold rowSlice
      have hoff : (tagPosRow csr tag T r).getD t 0
          = blockOffset (bucketAppend T (fun e => tag.getD e.1 0) (rowEntries csr r)) t := by
        rw [hd1]
        unfold blockOffset
        rw [List.map_take]
      have hbt : (bucketAppend T (fun e => tag.getD e.1 0) (rowEntries csr r)).getD t []
          = ((rowEntries csr r).filter fun e => tag.getD e.1 0 = t) := by
        rw [hBfilters, getD_map_range _ _ _ _ ht]
      have hlen2 : (tagPosRow csr tag T r).getD (t + 1) 0 - (tagPosRow csr tag T r).getD t 0
          = ((bucketAppend T (fun e => tag.getD e.1 0)
            (rowEntries csr r)).getD t []).length := by
        rw [hdiff, hbt]
      rw [hlen2, hoff, flatten_block_slice _ t (by rw [hBlen]; exact ht), hbt]
    refine ⟨by rw [htp, hd1, hd2, hsucc]; omega, by rw [htp]; exact hdiff, ?_, ?_⟩
    · rw [htp, hout, hslice]
    · intro e he
      rw [htp, hout, hslice] at he
      have := List.of_mem_filter he
      simpa using this
  · intro hinvalid
    unfold CSRSortByTag
    simp only [hde]
    rw [if_neg]
    intro hcond
    apply hinvalid
    intro r hr e he
    rw [List.all_eq_true] at hcond
    have := hcond r (List.mem_range.mpr hr)
    rw [List.all_eq_true] at this
    exact of_decide_eq_true (this e he)

/-- Witness for C2: one row carrying an explicit data array, with entries
tagged [1, 0, 1] and 2 tags. -/
theorem C2_sortByTag_correct_witness :
    CSRWF ⟨1, 3, [0, 3], [0, 1, 2], some [0, 1, 2], false⟩ ∧
    CSRHasData ⟨1, 3, [0, 3], [0, 1, 2], some [0, 1, 2], false⟩ = true ∧
    (∃ tp out,
      CSRSortByTag ⟨1, 3, [0, 3], [0, 1, 2], some [0, 1, 2], false⟩ [1, 0, 1] 2
        = .ok (tp, out) ∧
      SortByTagPost ⟨1, 3, [0, 3], [0, 1, 2], some [0, 1, 2], false⟩ [1, 0, 1] 2 tp out) := by
  have h : CSRWF ⟨1, 3, [0, 3], [0, 1, 2], some [0, 1, 2], false⟩ := by
    refine ⟨rfl, rfl, rfl, ?_, ?_⟩
    · intro r hr
      interval_cases r
      simp
    · intro d hd
      simp only [Option.some.injEq] at hd
      rw [← hd]
  refine ⟨h, rfl,
    (C2_sortByTag_correct ⟨1, 3, [0, 3], [0, 1, 2], some [0, 1, 2], false⟩ [1, 0, 1] 2 h rfl).1
      ?_⟩
  intro r hr e he
  interval_cases r
  have hre : rowEntries ⟨1, 3, [0, 3], [0, 1, 2], some [0, 1, 2], false⟩ 0
      = [(0, 0), (1, 1), (2, 2)] := by
    decide
  rw [hre] at he
  fin_cases he
  all_goals decide

/-! ## COOToCSR (array/cpu/spmat_op_impl_coo.cc) -/

theorem getD_set (l : List Nat) (j v q : Nat) (hj : j < l.length) :
    (l.set j v).getD q 0 = if q = j then v else l.getD q 0 := by
  by_cases hq : q < l.length
  · rw [List.getD_eq_getElem _ _ (by simpa using hq)]
    by_cases hqj : q = j
    · subst hqj
      rw [List.getElem_set_self, if_pos rfl]
    · rw [List.getElem_set_ne (fun h => hqj h.symm), if_neg hqj,
        List.getD_eq_getElem _ _ hq]
  · rw [List.getD_eq_default _ _ (by simpa using Nat.le_of_not_lt hq),
      List.getD_eq_default _ _ (Nat.le_of_not_lt hq), if_neg (by omega)]

/-- Inner `while (row != row_data[i]) { ++row; Bp[row] = i; }` of the
row-sorted `COOToCSR` branch: advance `row` to `target`, recording `i` in
each newly entered slot.  (On row-sorted input -- the only input this
branch receives -- `target >= row` always holds; for `target < row` the
C++ loop would not terminate, and this embedding stops instead.) -/
def bumpTo (Bp : List Nat) (row target i : Nat) : List Nat × Nat :=
  if row < target then bumpTo (Bp.set (row + 1) i) (row + 1) target i
  else (Bp, row)
termination_by target - row

/-- Trailing `while (row < N) { ++row; Bp[row] = NNZ; }` fill. -/
def fillTrailing (Bp : List Nat) (row N nnz : Nat) : List Nat :=
  if row < N then fillTrailing (Bp.set (row + 1) nnz) (row + 1) N nnz
  else Bp
termination_by N - row

/-- State `(Bp, row)` of the transition scan after the first `n` entries
have been processed. -/
def fillLoopState (rows : List Nat) (N n : Nat) : List Nat × Nat :=
  (List.range n).foldl (fun st i => bumpTo st.1 st.2 (rows.getD i 0) i)
    (List.replicate (N + 1) 0, 0)

/-- The `indptr` computation of the row-sorted branch: `Bp[0] = 0`, scan
the entries marking each row transition, then fill the remaining rows
with `NNZ`.  (The `NNZ == 0` case of the source fills with zeros, which
coincides with the empty scan followed by the trailing fill of 0.) -/
def fillIndptrSorted (rows : List Nat) (N : Nat) : List Nat :=
  fillTrailing (fillLoopState rows N rows.length).1
    (fillLoopState rows N rows.length).2 N rows.length

/-- `COOToCSR`.  Row-sorted branch: `indptr` from the transition scan,
`indices`/`data` taken in place (`data` materialised as `iota` when
absent).  General branch: the stable counting sort by row (per-row
histogram, prefix sum, placement at `Bp[r] + local_ptr[r]++`), embedded
by its single-thread schedule.  The result's sorted flag is
`col_sorted`. -/
def COOToCSR (coo : COOMatrix) : CSRMatrix :=
  if coo.row_sorted then
    { num_rows := coo.num_rows, num_cols := coo.num_cols,
      indptr := fillIndptrSorted coo.row coo.num_rows,
      indices := coo.col,
      data := some (coo.data.getD (List.range coo.row.length)),
      sorted := coo.col_sorted }
  else
    { num_rows := coo.num_rows, num_cols := coo.num_cols,
      indptr := List.scanl (· + ·) 0
        ((bucketAppend coo.num_rows (fun e => e.1)
          (List.zip coo.row (List.zip coo.col
            (coo.data.getD (List.range coo.row.length))))).map List.length),
      indices := (bucketAppend coo.num_rows (fun e => e.1)
        (List.zip coo.row (List.zip coo.col
          (coo.data.getD (List.range coo.row.length))))).flatten.map (fun e => e.2.1),
      data := some ((bucketAppend coo.num_rows (fun e => e.1)
        (List.zip coo.row (List.zip coo.col
          (coo.data.getD (List.range coo.row.length))))).flatten.map (fun e => e.2.2)),
      sorted := coo.col_sorted }

/-- Structural invariant of a COO matrix as consumed by `COOToCSR`:
parallel arrays, in-range rows, and a truthful `row_sorted` flag. -/
def COOWF (coo : COOMatrix) : Prop :=
  coo.col.length = coo.row.length ∧
  (∀ d, coo.data = some d → d.length = coo.row.length) ∧
  (∀ r ∈ coo.row, r < coo.num_rows) ∧
  (coo.row_sorted = true → List.Chain' (· ≤ ·) coo.row)

/-! ### Counting and sorted-partition lemmas -/

theorem countP_lt_succ (r : Nat) (l : List Nat) :
    l.countP (· < r + 1) = l.countP (· < r) + l.countP (· = r) := by
  induction l with
  | nil => simp
  | cons x l ih =>
      rw [List.countP_cons, List.countP_cons, List.countP_cons, ih]
      by_cases h1 : x < r
      · rw [if_pos (by simpa using Nat.lt_succ_of_lt h1), if_pos (by simpa using h1),
          if_neg (by simp; omega)]
        omega
      · by_cases h2 : x = r
        · rw [if_pos (by simp; omega), if_neg (by simpa using h1), if_pos (by simpa using h2)]
          omega
        · rw [if_neg (by simp; omega), if_neg (by simpa using h1), if_neg (by simpa using h2)]
          omega

/-- A list that is non-decreasing under `key` splits into its below-`r`,
at-`r`, and above-`r` filters in that order. -/
theorem sorted_threeway_split {α : Type} (key : α → Nat) (r : Nat) :
    ∀ (L : List α), List.Pairwise (fun a b => key a ≤ key b) L →
      L = (L.filter fun e => key e < r) ++ (L.filter fun e => key e = r)
        ++ (L.filter fun e => r < key e)
  | [], _ => by simp
  | a :: L, hpw => by
      obtain ⟨ha, hpwL⟩ := List.pairwise_cons.mp hpw
      have ih := sorted_threeway_split key r L hpwL
      rcases Nat.lt_trichotomy (key a) r with hlt | heq | hgt
      · rw [List.filter_cons, if_pos (by simpa using hlt),
          List.filter_cons, if_neg (by simp; omega),
          List.filter_cons, if_neg (by simp; omega)]
        rw [List.cons_append, List.cons_append]
        exact congrArg (a :: ·) ih
      · have h1 : L.filter (fun e => key e < r) = [] := by
          rw [List.filter_eq_nil_iff]
          intro b hb
          have := ha b hb
          simp
          omega
        rw [List.filter_cons, if_neg (by simp; omega),
          List.filter_cons, if_pos (by simpa using heq),
          List.filter_cons, if_neg (by simp; omega), h1]
        rw [h1] at ih
        simpa using congrArg (a :: ·) ih
      · have h1 : L.filter (fun e => key e < r) = [] := by
          rw [List.filter_eq_nil_iff]
          intro b hb
          have := ha b hb
          simp
          omega
        have h2 : L.filter (fun e => key e = r) = [] := by
          rw [List.filter_eq_nil_iff]
          intro b hb
          have := ha b hb
          simp
          omega
        rw [List.filter_cons, if_neg (by simp; omega),
          List.filter_cons, if_neg (by simp; omega),
          List.filter_cons, if_pos (by simpa using hgt), h1, h2]
        rw [h1, h2] at ih
        simpa using congrArg (a :: ·) ih

/-- On a key-sorted zipped list, the span `[countP (< r), countP (< r+1))`
of the payload is exactly the payload of the key-`r` entries. -/
theorem sorted_zip_filter_slice {α : Type} (rows : List Nat) (X : List α)
    (hlen : X.length = rows.length) (hsorted : List.Chain' (· ≤ ·) rows) (r : Nat) :
    rowSlice X (rows.countP (· < r)) (rows.countP (· < r + 1))
      = ((List.zip rows X).filter fun e => e.1 = r).map (fun e => e.2) := by
  have hpwrows : List.Pairwise (· ≤ ·) rows := List.chain'_iff_pairwise.mp hsorted
  have hpw : List.Pairwise (fun a b : Nat × α => a.1 ≤ b.1) (List.zip rows X) := by
    have hfst : (List.zip rows X).map Prod.fst = rows :=
      List.map_fst_zip rows X (by omega)
    have := hfst ▸ hpwrows
    rwa [List.pairwise_map] at this
  have hsplit := sorted_threeway_split Prod.fst r (List.zip rows X) hpw
  have hcnt1 : (List.zip rows X).countP (fun e => decide (e.1 < r)) = rows.countP (· < r) := by
    have h := List.countP_map (fun x => decide (x < r)) Prod.fst (List.zip rows X)
    rw [List.map_fst_zip rows X (by omega)] at h
    exact Eq.trans (by rfl) h.symm
  have hcnt2 : (List.zip rows X).countP (fun e => decide (e.1 = r)) = rows.countP (· = r) := by
    have h := List.countP_map (fun x => decide (x = r)) Prod.fst (List.zip rows X)
    rw [List.map_fst_zip rows X (by omega)] at h
    exact Eq.trans (by rfl) h.symm
  have hX : X = (List.zip rows X).map (fun e => e.2) := by
    have := List.map_snd_zip rows X (by omega)
    exact this.symm
  unfold rowSlice
  rw [countP_lt_succ]
  have h1len : ((List.zip rows X).filter fun e : Nat × α => e.1 < r).length
      = rows.countP (· < r) := by
    rw [← List.countP_eq_length_filter, hcnt1]
  have h2len : ((List.zip rows X).filter fun e : Nat × α => e.1 = r).length
      = rows.countP (· = r) := by
    rw [← List.countP_eq_length_filter, hcnt2]
  conv_lhs => rw [hX, hsplit]
  rw [List.map_append, List.map_append, List.append_assoc]
  have hd : rows.countP (· < r)
      = (((List.zip rows X).filter fun e : Nat × α => e.1 < r).map (fun e => e.2)).length := by
    rw [List.length_map, h1len]
  have ht : rows.countP (· < r) + rows.countP (· = r) - rows.countP (· < r)
      = (((List.zip rows X).filter fun e : Nat × α => e.1 = r).map (fun e => e.2)).length := by
    rw [List.length_map, h2len]
    omega
  rw [ht, hd, List.drop_left, List.take_left]

/-! ### Characterisation of the row-sorted indptr scan -/

theorem bumpTo_spec (Bp : List Nat) (row target i : Nat) (hrt : row ≤ target)
    (hlen : target < Bp.length) :
    (bumpTo Bp row target i).2 = target ∧
    (bumpTo Bp row target i).1.length = Bp.length ∧
    ∀ q, (bumpTo Bp row target i).1.getD q 0
      = if row + 1 ≤ q ∧ q ≤ target then i else Bp.getD q 0 := by
  by_cases h : row < target
  · have hlen2 : target < (Bp.set (row + 1) i).length := by rwa [List.length_set]
    have ih := bumpTo_spec (Bp.set (row + 1) i) (row + 1) target i h hlen2
    rw [bumpTo, if_pos h]
    refine ⟨ih.1, by rw [ih.2.1, List.length_set], ?_⟩
    intro q
    rw [ih.2.2 q, getD_set Bp (row + 1) i q (by omega)]
    by_cases hq1 : row + 2 ≤ q ∧ q ≤ target
    · rw [if_pos hq1, if_pos (by omega)]
    · rw [if_neg hq1]
      by_cases hq2 : q = row + 1
      · rw [if_pos hq2, if_pos (by omega)]
      · rw [if_neg hq2, if_neg (by omega)]
  · rw [bumpTo, if_neg h]
    refine ⟨by omega, rfl, ?_⟩
    intro q
    rw [if_neg (by omega)]
termination_by target - row

theorem fillTrailing_spec (Bp : List Nat) (row N nnz : Nat) (hrN : row ≤ N)
    (hlen : N < Bp.length) :
    (fillTrailing Bp row N nnz).length = Bp.length ∧
    ∀ q, (fillTrailing Bp row N nnz).getD q 0
      = if row + 1 ≤ q ∧ q ≤ N then nnz else Bp.getD q 0 := by
  by_cases h : row < N
  · have hlen2 : N < (Bp.set (row + 1) nnz).length := by rwa [List.length_set]
    have ih := fillTrailing_spec (Bp.set (row + 1) nnz) (row + 1) N nnz h hlen2
    rw [fillTrailing, if_pos h]
    refine ⟨by rw [ih.1, List.length_set], ?_⟩
    intro q
    rw [ih.2 q, getD_set Bp (row + 1) nnz q (by omega)]
    by_cases hq1 : row + 2 ≤ q ∧ q ≤ N
    · rw [if_pos hq1, if_pos (by omega)]
    · rw [if_neg hq1]
      by_cases hq2 : q = row + 1
      · rw [if_pos hq2, if_pos (by omega)]
      · rw [if_neg hq2, if_neg (by omega)]
  · rw [fillTrailing, if_neg h]
    refine ⟨rfl, ?_⟩
    intro q
    rw [if_neg (by omega)]
termination_by N - row

/-- For a non-decreasing list, if everything before position `n` is below
`q` and the element at `n` is at least `q`, then exactly `n` elements are
below `q`. -/
theorem countP_lt_eq_of_sorted (rows : List Nat) (hpw : List.Pairwise (· ≤ ·) rows)
    (n : Nat) (hn : n < rows.length) (q : Nat)
    (hprev : n = 0 ∨ rows.getD (n - 1) 0 < q) (hq : q ≤ rows.getD n 0) :
    rows.countP (· < q) = n := by
  have hpwge := List.pairwise_iff_getElem.mp hpw
  conv_lhs => rw [← List.take_append_drop n rows]
  rw [List.countP_append]
  have h1 : (rows.take n).countP (· < q) = n := by
    have hall : ∀ a ∈ rows.take n, decide (a < q) = true := by
      intro a ha
      obtain ⟨j, hjl, hja⟩ := List.mem_iff_getElem.mp ha
      have hjn : j < n := by
        have := hjl
        simp at this
        omega
      rw [List.getElem_take] at hja
      rcases hprev with h0 | hlt
      · omega
      · have hgd : rows.getD (n - 1) 0 = rows.get ⟨n - 1, by omega⟩ := by
          rw [List.get_eq_getElem]
          exact List.getD_eq_getElem _ _ (by omega)
        have hle : rows[j] ≤ rows.get ⟨n - 1, by omega⟩ := by
          rw [List.get_eq_getElem]
          by_cases hj : j = n - 1
          · subst hj
            exact le_refl _
          · exact hpwge j (n - 1) (by omega) (by omega) (by omega)
        rw [decide_eq_true_iff, ← hja]
        exact lt_of_le_of_lt hle (hgd ▸ hlt)
    rw [List.countP_eq_length.mpr hall, List.length_take]
    omega
  have h2 : (rows.drop n).countP (· < q) = 0 := by
    rw [List.countP_eq_zero]
    intro a ha
    obtain ⟨j, hjl, hja⟩ := List.mem_drop_iff_getElem.mp ha
    have : rows.getD n 0 ≤ rows[n + j] := by
      rw [List.getD_eq_getElem _ _ hn]
      by_cases hj : j = 0
      · subst hj; exact le_refl _
      · exact hpwge n (n + j) hn (by omega) (by omega)
    rw [hja] at this
    simp
    omega
  omega

theorem fillLoopState_succ (rows : List Nat) (N n : Nat) :
    fillLoopState rows N (n + 1)
      = bumpTo (fillLoopState rows N n).1 (fillLoopState rows N n).2 (rows.getD n 0) n := by
  unfold fillLoopState
  rw [List.range_succ, List.foldl_append, List.foldl_cons, List.foldl_nil]

theorem fillLoop_spec (rows : List Nat) (N : Nat)
    (hpw : List.Pairwise (· ≤ ·) rows) (hlt : ∀ r ∈ rows, r < N) :
    ∀ n, n ≤ rows.length →
      (fillLoopState rows N n).1.length = N + 1 ∧
      (fillLoopState rows N n).2 = (if n = 0 then 0 else rows.getD (n - 1) 0) ∧
      (fillLoopState rows N n).2 ≤ N ∧
      (∀ q, (fillLoopState rows N n).1.getD q 0
        = if 1 ≤ q ∧ q ≤ (fillLoopState rows N n).2 then rows.countP (· < q) else 0)
  | 0, _ => by
      have h0 : fillLoopState rows N 0 = (List.replicate (N + 1) 0, 0) := rfl
      rw [h0]
      refine ⟨by simp, by simp, by simp, ?_⟩
      intro q
      rw [if_neg (by omega)]
      by_cases hq : q < N + 1
      · rw [List.getD_eq_getElem _ _ (by simpa using hq)]
        simp
      · rw [List.getD_eq_default _ _ (by simpa using Nat.le_of_not_lt hq)]
  | n + 1, h => by
      obtain ⟨ihlen, ihrow, ihle, ihget⟩ := fillLoop_spec rows N hpw hlt n (by omega)
      have hnlen : n < rows.length := by omega
      have hmem : rows.getD n 0 ∈ rows := by
        rw [List.getD_eq_getElem _ _ hnlen]
        exact List.getElem_mem _
      have htN : rows.getD n 0 < N := hlt _ hmem
      have hrt : (fillLoopState rows N n).2 ≤ rows.getD n 0 := by
        rw [ihrow]
        by_cases hn0 : n = 0
        · rw [if_pos hn0]
          omega
        · rw [if_neg hn0, List.getD_eq_getElem _ _ (by omega),
            List.getD_eq_getElem _ _ hnlen]
          exact List.pairwise_iff_getElem.mp hpw (n - 1) n (by omega) (by omega) (by omega)
      have hblen : rows.getD n 0 < (fillLoopState rows N n).1.length := by
        rw [ihlen]
        omega
      have hb := bumpTo_spec (fillLoopState rows N n).1 (fillLoopState rows N n).2
        (rows.getD n 0) n hrt hblen
      rw [fillLoopState_succ]
      refine ⟨by rw [hb.2.1, ihlen], by rw [hb.1]; simp, by rw [hb.1]; omega, ?_⟩
      intro q
      rw [hb.2.2 q, ihget q, hb.1]
      by_cases hc1 : (fillLoopState rows N n).2 + 1 ≤ q ∧ q ≤ rows.getD n 0
      · rw [if_pos hc1, if_pos (by omega)]
        refine (countP_lt_eq_of_sorted rows hpw n hnlen q ?_ (by omega)).symm
        by_cases hn0 : n = 0
        · exact Or.inl hn0
        · right
          rw [if_neg hn0] at ihrow
          omega
      · rw [if_neg hc1]
        by_cases hc2 : 1 ≤ q ∧ q ≤ (fillLoopState rows N n).2
        · rw [if_pos hc2, if_pos (by omega)]
        · rw [if_neg hc2, if_neg (by omega)]

theorem fillIndptrSorted_spec (rows : List Nat) (N : Nat)
    (hsorted : List.Chain' (· ≤ ·) rows) (hlt : ∀ r ∈ rows, r < N) :
    (fillIndptrSorted rows N).length = N + 1 ∧
    ∀ q, q ≤ N → (fillIndptrSorted rows N).getD q 0 = rows.countP (· < q) := by
  have hpw := List.chain'_iff_pairwise.mp hsorted
  obtain ⟨hlen, hrow, hle, hget⟩ := fillLoop_spec rows N hpw hlt rows.length (le_refl _)
  unfold fillIndptrSorted
  have hft := fillTrailing_spec (fillLoopState rows N rows.length).1
    (fillLoopState rows N rows.length).2 N rows.length hle (by omega)
  refine ⟨by rw [hft.1, hlen], ?_⟩
  intro q hq
  rw [hft.2 q]
  by_cases hc1 : (fillLoopState rows N rows.length).2 + 1 ≤ q ∧ q ≤ N
  · rw [if_pos hc1]
    symm
    rw [List.countP_eq_length]
    intro a ha
    rw [decide_eq_true_iff]
    obtain ⟨j, hj, hja⟩ := List.mem_iff_getElem.mp ha
    rw [if_neg (by omega)] at hrow
    have hle2 : rows[j] ≤ rows.getD (rows.length - 1) 0 := by
      rw [List.getD_eq_getElem _ _ (by omega)]
      by_cases hjl : j = rows.length - 1
      · subst hjl
        exact le_refl _
      · exact List.pairwise_iff_getElem.mp hpw j (rows.length - 1) hj (by omega) (by omega)
    omega
  · rw [if_neg hc1, hget q]
    by_cases hc2 : 1 ≤ q ∧ q ≤ (fillLoopState rows N rows.length).2
    · rw [if_pos hc2]
    · rw [if_neg hc2]
      have hq0 : q = 0 := by omega
      subst hq0
      symm
      rw [List.countP_eq_zero]
      intro a _
      simp

/-- Block `t` of a concatenation, recovered from the prefix-sum indptr
produced by `scanl` over the block lengths. -/
theorem scanl_block_slice {α : Type} (B : List (List α)) (t : Nat) (ht : t < B.length) :
    rowSlice B.flatten ((List.scanl (· + ·) 0 (B.map List.length)).getD t 0)
      ((List.scanl (· + ·) 0 (B.map List.length)).getD (t + 1) 0) = B.getD t [] := by
  have hlen : (B.map List.length).length = B.length := List.length_map _ _
  have h1 : (List.scanl (· + ·) 0 (B.map List.length)).getD t 0
      = ((B.map List.length).take t).sum := by
    rw [scanl_add_getD _ _ _ (by omega)]
    omega
  have h2 : (List.scanl (· + ·) 0 (B.map List.length)).getD (t + 1) 0
      = ((B.map List.length).take (t + 1)).sum := by
    rw [scanl_add_getD _ _ _ (by omega)]
    omega
  have hsucc := sum_take_succ_getD (B.map List.length) t (by omega)
  have hszt : (B.map List.length).getD t 0 = (B.getD t []).length := by
    rw [List.getD_eq_getElem _ _ (by omega), List.getElem_map,
      ← List.getD_eq_getElem B [] ht]
  have hoff : ((B.map List.length).take t).sum = blockOffset B t := by
    unfold blockOffset
    rw [List.map_take]
  unfold rowSlice
  rw [h1, h2, hsucc, hszt, hoff]
  have hcancel : blockOffset B t + (B.getD t []).length - blockOffset B t
      = (B.getD t []).length := by omega
  rw [hcancel]
  exact flatten_block_slice B t ht

/-- Post-condition of `COOToCSR`: dimensions preserved, `indptr` starts
at 0 and ends at `nnz = len(indices)`, every row's `(column, eid)` slice
is exactly (in order) the row's COO entries, and the flat `(column, eid)`
collection, as well as the edge-id array alone, is a permutation of the
input's (identity position ids when `data` is absent). -/
def COOToCSRPost (coo : COOMatrix) (out : CSRMatrix) : Prop :=
  out.num_rows = coo.num_rows ∧
  out.num_cols = coo.num_cols ∧
  out.indptr.length = coo.num_rows + 1 ∧
  out.indptr.getD 0 0 = 0 ∧
  out.indptr.getD coo.num_rows 0 = coo.row.length ∧
  out.indices.length = coo.row.length ∧
  (∀ r, r < coo.num_rows →
    rowSlice (List.zip out.indices (out.data.getD [])) (out.indptr.getD r 0)
        (out.indptr.getD (r + 1) 0)
      = ((List.zip coo.row (List.zip coo.col
          (coo.data.getD (List.range coo.row.length)))).filter
            fun e => e.1 = r).map (fun e => e.2)) ∧
  (List.zip out.indices (out.data.getD [])).Perm
    (List.zip coo.col (coo.data.getD (List.range coo.row.length))) ∧
  (out.data.getD []).Perm (coo.data.getD (List.range coo.row.length))

/-- C3 (claim): `COOToCSR` preserves the edge multiset and dimensions,
produces `indptr[0] = 0`, `indptr[num_rows] = nnz = len(indices)`, row
slices holding exactly each row's columns, and identity position-index
edge ids when the COO has no `data` array. -/
theorem C3_cooToCSR_correct (coo : COOMatrix) (hwf : COOWF coo) :
    COOToCSRPost coo (COOToCSR coo) := by
  obtain ⟨hcol, hdata, hrows, hsflag⟩ := hwf
  have heidlen : (coo.data.getD (List.range coo.row.length)).length = coo.row.length := by
    cases hd : coo.data with
    | none => simp
    | some d => simpa using hdata d hd
  have hziplen : (List.zip coo.col (coo.data.getD (List.range coo.row.length))).length
      = coo.row.length := by
    rw [List.length_zip, hcol, heidlen, min_self]
  unfold COOToCSR
  by_cases hs : coo.row_sorted
  · rw [if_pos hs]
    have hchain := hsflag hs
    obtain ⟨hfl, hfg⟩ := fillIndptrSorted_spec coo.row coo.num_rows hchain hrows
    refine ⟨rfl, rfl, hfl, ?_, ?_, hcol, ?_, List.Perm.refl _, List.Perm.refl _⟩
    · rw [hfg 0 (by omega), List.countP_eq_zero]
      intro a _
      simp
    · rw [hfg coo.num_rows (le_refl _)]
      exact List.countP_eq_length.mpr fun a ha => decide_eq_true (hrows a ha)
    · intro r hr
      show rowSlice (List.zip coo.col (coo.data.getD (List.range coo.row.length)))
        ((fillIndptrSorted coo.row coo.num_rows).getD r 0)
        ((fillIndptrSorted coo.row coo.num_rows).getD (r + 1) 0) = _
      rw [hfg r (by omega), hfg (r + 1) (by omega)]
      exact sorted_zip_filter_slice coo.row _ hziplen hchain r
  · rw [if_neg hs]
    have hkeys : ∀ e ∈ List.zip coo.row (List.zip coo.col
        (coo.data.getD (List.range coo.row.length))), (fun e => e.1) e < coo.num_rows := by
      intro e he
      obtain ⟨a, b⟩ := e
      exact hrows a (List.of_mem_zip he).1
    have hentlen : (List.zip coo.row (List.zip coo.col
        (coo.data.getD (List.range coo.row.length)))).length = coo.row.length := by
      rw [List.length_zip, hziplen, min_self]
    have hBfilters := bucketAppend_eq_filters coo.num_rows (fun e => e.1)
      (List.zip coo.row (List.zip coo.col (coo.data.getD (List.range coo.row.length)))) hkeys
    have hBlen : (bucketAppend coo.num_rows (fun e => e.1)
        (List.zip coo.row (List.zip coo.col
          (coo.data.getD (List.range coo.row.length))))).length = coo.num_rows := by
      rw [hBfilters]
      simp
    have hperm : (List.zip coo.row (List.zip coo.col
        (coo.data.getD (List.range coo.row.length)))).Perm
        ((bucketAppend coo.num_rows (fun e => e.1)
          (List.zip coo.row (List.zip coo.col
            (coo.data.getD (List.range coo.row.length))))).flatten) := by
      rw [hBfilters]
      exact perm_flatten_filters coo.num_rows _ _ hkeys
    have hflatlen : (bucketAppend coo.num_rows (fun e => e.1)
        (List.zip coo.row (List.zip coo.col
          (coo.data.getD (List.range coo.row.length))))).flatten.length
        = coo.row.length := by
      rw [← hperm.length_eq, hentlen]
    have hszlen : ((bucketAppend coo.num_rows (fun e => e.1)
        (List.zip coo.row (List.zip coo.col
          (coo.data.getD (List.range coo.row.length))))).map List.length).length
        = coo.num_rows := by
      rw [List.length_map, hBlen]
    have hzipout : List.zip
        ((bucketAppend coo.num_rows (fun e => e.1)
          (List.zip coo.row (List.zip coo.col
            (coo.data.getD (List.range coo.row.length))))).flatten.map (fun e => e.2.1))
        ((bucketAppend coo.num_rows (fun e => e.1)
          (List.zip coo.row (List.zip coo.col
            (coo.data.getD (List.range coo.row.length))))).flatten.map (fun e => e.2.2))
        = (bucketAppend coo.num_rows (fun e => e.1)
          (List.zip coo.row (List.zip coo.col
            (coo.data.getD (List.range coo.row.length))))).flatten.map (fun e => e.2) := by
      rw [List.zip_map']
    have hsndzip : ((List.zip coo.row (List.zip coo.col
        (coo.data.getD (List.range coo.row.length)))).map fun e => e.2)
        = List.zip coo.col (coo.data.getD (List.range coo.row.length)) :=
      List.map_snd_zip _ _ (by omega)
    refine ⟨rfl, rfl, by rw [List.length_scanl, hszlen], ?_, ?_, ?_, ?_, ?_, ?_⟩
    · show (List.scanl (· + ·) 0 _).getD 0 0 = 0
      rw [scanl_add_getD _ _ _ (by omega)]
      simp
    · show (List.scanl (· + ·) 0 _).getD coo.num_rows 0 = _
      rw [scanl_add_getD _ _ _ (by omega), List.take_of_length_le (by rw [hszlen]),
        Nat.zero_add, ← List.length_flatten, hflatlen]
    · show ((bucketAppend _ _ _).flatten.map _).length = _
      rw [List.length_map, hflatlen]
    · intro r hr
      show rowSlice (List.zip
        ((bucketAppend coo.num_rows (fun e => e.1)
          (List.zip coo.row (List.zip coo.col
            (coo.data.getD (List.range coo.row.length))))).flatten.map (fun e => e.2.1))
        ((bucketAppend coo.num_rows (fun e => e.1)
          (List.zip coo.row (List.zip coo.col
            (coo.data.getD (List.range coo.row.length))))).flatten.map (fun e => e.2.2)))
        ((List.scanl (· + ·) 0 ((bucketAppend coo.num_rows (fun e => e.1)
          (List.zip coo.row (List.zip coo.col
            (coo.data.getD (List.range coo.row.length))))).map List.length)).getD r 0)
        ((List.scanl (· + ·) 0 ((bucketAppend coo.num_rows (fun e => e.1)
          (List.zip coo.row (List.zip coo.col
            (coo.data.getD (List.range coo.row.length))))).map List.length)).getD (r + 1) 0)
        = _
      rw [hzipout]
      unfold rowSlice
      rw [← List.map_drop, ← List.map_take]
      have hbs := scanl_block_slice (bucketAppend coo.num_rows (fun e => e.1)
        (List.zip coo.row (List.zip coo.col
          (coo.data.getD (List.range coo.row.length))))) r (by rw [hBlen]; exact hr)
      unfold rowSlice at hbs
      rw [hbs, hBfilters, getD_map_range _ _ _ _ hr]
    · show (List.zip
        ((bucketAppend coo.num_rows (fun e => e.1)
          (List.zip coo.row (List.zip coo.col
            (coo.data.getD (List.range coo.row.length))))).flatten.map (fun e => e.2.1))
        ((bucketAppend coo.num_rows (fun e => e.1)
          (List.zip coo.row (List.zip coo.col
            (coo.data.getD (List.range coo.row.length))))).flatten.map (fun e => e.2.2))).Perm
        (List.zip coo.col (coo.data.getD (List.range coo.row.length)))
      rw [hzipout]
      refine ((hperm.map fun e => e.2).symm).trans ?_
      rw [hsndzip]
    · show ((bucketAppend coo.num_rows (fun e => e.1)
        (List.zip coo.row (List.zip coo.col
          (coo.data.getD (List.range coo.row.length))))).flatten.map (fun e => e.2.2)).Perm
        (coo.data.getD (List.range coo.row.length))
      have hcomp : ((bucketAppend coo.num_rows (fun e => e.1)
          (List.zip coo.row (List.zip coo.col
            (coo.data.getD (List.range coo.row.length))))).flatten.map fun e => e.2.2)
          = (((bucketAppend coo.num_rows (fun e => e.1)
            (List.zip coo.row (List.zip coo.col
              (coo.data.getD (List.range coo.row.length))))).flatten.map
                fun e => e.2).map fun x => x.2) :=
        (List.map_map _ _ _).symm
      have hcomp2 : (((List.zip coo.row (List.zip coo.col
          (coo.data.getD (List.range coo.row.length)))).map fun e => e.2).map fun x => x.2)
          = ((List.zip coo.row (List.zip coo.col
            (coo.data.getD (List.range coo.row.length)))).map fun e => e.2.2) :=
        List.map_map _ _ _
      have hsnd2 : ((List.zip coo.col
          (coo.data.getD (List.range coo.row.length))).map fun x => x.2)
          = coo.data.getD (List.range coo.row.length) :=
        List.map_snd_zip _ _ (by omega)
      have h2 : ((List.zip coo.row (List.zip coo.col
          (coo.data.getD (List.range coo.row.length)))).map fun e => e.2.2)
          = coo.data.getD (List.range coo.row.length) := by
        rw [← hcomp2, hsndzip, hsnd2]
      rw [hcomp]
      refine (((hperm.map fun e => e.2).map fun x => x.2).symm).trans ?_
      rw [hcomp2, h2]

/-- Witness for C3 at a concrete unsorted 2x3 COO matrix without data. -/
theorem C3_cooToCSR_correct_witness :
    COOWF ⟨2, 3, [1, 0, 1], [2, 1, 0], none, false, false⟩ ∧
    COOToCSRPost ⟨2, 3, [1, 0, 1], [2, 1, 0], none, false, false⟩
      (COOToCSR ⟨2, 3, [1, 0, 1], [2, 1, 0], none, false, false⟩) := by
  have h : COOWF ⟨2, 3, [1, 0, 1], [2, 1, 0], none, false, false⟩ := by
    refine ⟨rfl, ?_, ?_, ?_⟩
    · intro d hd
      simp at hd
    · decide
    · intro hfalse
      simp at hfalse
  exact ⟨h, C3_cooToCSR_correct _ h⟩

/-! ## COOGetDataAndIndices (array/cpu/spmat_op_impl_coo.cc)

The source offers two strategies behind the same loop: a linear scan of
the COO entries per query, and (when the number of lookups is at least
200) a prebuilt `unordered_multimap` keyed by `(row, col)`.  The multimap
is embedded as the insertion-ordered association list of the entries;
`equal_range` becomes the order-preserving filter by key. -/

/-- Number of loop iterations of
`for (i = 0, j = 0; i < rowlen && j < collen; i += row_stride, j += col_stride)`. -/
def queryCount (rowlen collen : Nat) : Nat :=
  if rowlen = 1 ∧ collen ≠ 1 then collen
  else if collen = 1 ∧ rowlen ≠ 1 then rowlen
  else min rowlen collen

/-- The `(row_data[i], col_data[j])` pairs visited by the query loop; a
length-1 array is broadcast against the other (stride 0). -/
def queryPairs (rows cols : List Nat) : List (Nat × Nat) :=
  (List.range (queryCount rows.length cols.length)).map fun p =>
    (rows.getD (p * (if rows.length = 1 ∧ cols.length ≠ 1 then 0 else 1)) 0,
     cols.getD (p * (if cols.length = 1 ∧ rows.length ≠ 1 then 0 else 1)) 0)

/-- The `pair_map` multimap: every entry `k` inserted as
`((row[k], col[k]), data ? data[k] : k)`, in position order. -/
def PairMap (coo : COOMatrix) : List ((Nat × Nat) × Nat) :=
  (List.range coo.row.length).map fun k =>
    ((coo.row.getD k 0, coo.col.getD k 0), coo.eid k)

/-- Linear-scan matches for one query: scan all of `coo`, emitting
`(row_id, col_id, edge id)` at every hit. -/
def linearMatches (coo : COOMatrix) (q : Nat × Nat) : List (Nat × Nat × Nat) :=
  (List.range coo.row.length).filterMap fun k =>
    if coo.row.getD k 0 = q.1 ∧ coo.col.getD k 0 = q.2
    then some (q.1, q.2, coo.eid k) else none

/-- Hash-multimap matches for one query: `equal_range` over `pair_map`. -/
def hashMatches (coo : COOMatrix) (q : Nat × Nat) : List (Nat × Nat × Nat) :=
  ((PairMap coo).filter fun e => e.1 = q).map fun e => (q.1, q.2, e.2)

/-- Per-query loop shared by both strategies: `CHECK` each id against the
matrix bounds, then append that query's matches. -/
def processQueries (coo : COOMatrix) (lookup : Nat × Nat → List (Nat × Nat × Nat)) :
    List (Nat × Nat) → Except String (List (Nat × Nat × Nat))
  | [] => .ok []
  | q :: rest =>
      if q.1 < coo.num_rows then
        if q.2 < coo.num_cols then
          (processQueries coo lookup rest).map fun tail => lookup q ++ tail
        else .error "Invalid col index"
      else .error "Invalid row index"

/-- `COOGetDataAndIndices`: hash strategy when the lookup count is at
least 200, linear scan otherwise.  The result models the three parallel
result vectors `(ret_rows, ret_cols, ret_data)` as a list of triples. -/
def COOGetDataAndIndices (coo : COOMatrix) (rows cols : List Nat) :
    Except String (List (Nat × Nat × Nat)) :=
  if rows.length = cols.length ∨ rows.length = 1 ∨ cols.length = 1 then
    if 200 ≤ max rows.length cols.length then
      processQueries coo (hashMatches coo) (queryPairs rows cols)
    else
      processQueries coo (linearMatches coo) (queryPairs rows cols)
  else .error "Invalid row and col id array."

theorem filterMap_ite {α β : Type} (p : α → Prop) [DecidablePred p] (v : α → β) :
    ∀ l : List α, (l.filterMap fun a => if p a then some (v a) else none)
      = (l.filter fun a => p a).map v
  | [] => rfl
  | a :: l => by
      rw [List.filterMap_cons, List.filter_cons]
      by_cases h : p a
      · simp only [if_pos h, if_pos (decide_eq_true h)]
        rw [List.map_cons, filterMap_ite p v l]
      · have hd : decide (p a) = false := by simpa using h
        simp only [if_neg h, hd, Bool.false_eq_true, if_false]
        rw [filterMap_ite p v l]

theorem hashMatches_eq_linearMatches (coo : COOMatrix) (q : Nat × Nat) :
    hashMatches coo q = linearMatches coo q := by
  unfold hashMatches linearMatches PairMap
  rw [List.filter_map, List.map_map, filterMap_ite
    (fun k => coo.row.getD k 0 = q.1 ∧ coo.col.getD k 0 = q.2)
    (fun k => (q.1, q.2, coo.eid k))]
  have hfil : List.filter ((fun e : (Nat × Nat) × Nat => decide (e.1 = q)) ∘
        fun k => ((coo.row.getD k 0, coo.col.getD k 0), coo.eid k))
        (List.range coo.row.length)
      = List.filter (fun k => decide (coo.row.getD k 0 = q.1 ∧ coo.col.getD k 0 = q.2))
        (List.range coo.row.length) :=
    List.filter_congr fun k _ => by simp [Prod.ext_iff]
  rw [hfil]
  exact List.map_congr_left fun a _ => rfl

/-- C6 (claim): the hash-multimap strategy and the linear-scan strategy
of `COOGetDataAndIndices` return the same result triples on every input;
the 200-lookup threshold only selects between equal computations. -/
theorem C6_lookup_strategy_equiv (coo : COOMatrix) (rows cols : List Nat) :
    processQueries coo (hashMatches coo) (queryPairs rows cols)
      = processQueries coo (linearMatches coo) (queryPairs rows cols) ∧
    COOGetDataAndIndices coo rows cols
      = (if rows.length = cols.length ∨ rows.length = 1 ∨ cols.length = 1 then
          processQueries coo (linearMatches coo) (queryPairs rows cols)
        else .error "Invalid row and col id array.") := by
  have hfun : hashMatches coo = linearMatches coo :=
    funext fun q => hashMatches_eq_linearMatches coo q
  have hproc : processQueries coo (hashMatches coo) (queryPairs rows cols)
      = processQueries coo (linearMatches coo) (queryPairs rows cols) := by
    rw [hfun]
  refine ⟨hproc, ?_⟩
  unfold COOGetDataAndIndices
  by_cases hchk : rows.length = cols.length ∨ rows.length = 1 ∨ cols.length = 1
  · rw [if_pos hchk, if_pos hchk]
    by_cases hthr : 200 ≤ max rows.length cols.length
    · rw [if_pos hthr, hproc]
    · rw [if_neg hthr]
  · rw [if_neg hchk, if_neg hchk]

/-! ## COOGetData (array/cpu/spmat_op_impl_coo.cc) -/

/-- Linear-scan branch of `COOGetData`: first matching entry's edge id
(stored `data` value, or the position itself), `-1` when none matches. -/
def linearGetData (coo : COOMatrix) (r c : Nat) : Int :=
  match (List.range coo.row.length).find? fun k =>
      coo.row.getD k 0 = r ∧ coo.col.getD k 0 = c with
  | some k => (coo.eid k : Int)
  | none => -1

/-- Row-sorted branch of `COOGetData`: `std::lower_bound` over the sorted
row array (embedded as the count of entries below `r`, which on sorted
input is the first position with row `>= r`), then a scan of the
equal-row span for the first matching column. -/
def sortedGetData (coo : COOMatrix) (r c : Nat) : Int :=
  match (((List.range coo.row.length).drop (coo.row.countP (· < r))).takeWhile fun k =>
      coo.row.getD k 0 = r).find? (fun k => coo.col.getD k 0 = c) with
  | some k => (coo.eid k : Int)
  | none => -1

/-- `COOGetData`: length-checked broadcasted query loop producing
`max(rowlen, collen)` lookups, dispatching on the `row_sorted` flag. -/
def COOGetData (coo : COOMatrix) (rows cols : List Nat) : Except String (List Int) :=
  if rows.length = cols.length ∨ rows.length = 1 ∨ cols.length = 1 then
    .ok ((List.range (max rows.length cols.length)).map fun p =>
      if coo.row_sorted then
        sortedGetData coo
          (rows.getD (p * (if rows.length = 1 ∧ cols.length ≠ 1 then 0 else 1)) 0)
          (cols.getD (p * (if cols.length = 1 ∧ rows.length ≠ 1 then 0 else 1)) 0)
      else
        linearGetData coo
          (rows.getD (p * (if rows.length = 1 ∧ cols.length ≠ 1 then 0 else 1)) 0)
          (cols.getD (p * (if cols.length = 1 ∧ rows.length ≠ 1 then 0 else 1)) 0))
  else .error "Invalid row and col Id array"

theorem drop_range_eq (n m : Nat) : (List.range n).drop m = List.range' m (n - m) := by
  apply List.ext_getElem
  · simp
  · intro i h1 h2
    rw [List.getElem_drop, List.getElem_range, List.getElem_range']
    omega

theorem find?_congr_mem {α : Type} (p q : α → Bool) :
    ∀ l : List α, (∀ x ∈ l, p x = q x) → l.find? p = l.find? q
  | [], _ => rfl
  | a :: l, h => by
      rw [List.find?_cons, List.find?_cons, h a (by simp)]
      cases hq : q a
      · exact find?_congr_mem p q l fun x hx => h x (by simp [hx])
      · rfl

theorem takeWhile_range'_eq (p : Nat → Bool) :
    ∀ (m n s : Nat), m ≤ n → (∀ k, k < m → p (s + k) = true) →
      (m < n → p (s + m) = false) →
      (List.range' s n).takeWhile p = List.range' s m
  | 0, n, s, _, _, h2 => by
      cases n with
      | zero => rfl
      | succ n' =>
          rw [List.range'_succ, List.takeWhile_cons]
          have hps : p s = false := by
            have := h2 (by omega)
            simpa using this
          rw [hps]
          simp
  | m + 1, n, s, hmn, h1, h2 => by
      cases n with
      | zero => omega
      | succ n' =>
          rw [List.range'_succ, List.takeWhile_cons]
          have hps : p s = true := by
            have := h1 0 (by omega)
            simpa using this
          rw [hps]
          simp only [if_true]
          rw [List.range'_succ]
          refine congrArg (s :: ·) ?_
          refine takeWhile_range'_eq p m n' (s + 1) (by omega) ?_ ?_
          · intro k hk
            have := h1 (k + 1) (by omega)
            have harith : s + (k + 1) = s + 1 + k := by omega
            rwa [harith] at this
          · intro hlt
            have := h2 (by omega)
            have harith : s + (m + 1) = s + 1 + m := by omega
            rwa [harith] at this

/-- Positional description of a sorted row array around the value `r`:
entries below `lower_bound` are `< r`, the next `count(= r)` entries are
`= r`, and the rest are `> r`. -/
theorem sorted_row_positions (rows : List Nat) (hchain : List.Chain' (· ≤ ·) rows)
    (r : Nat) (k : Nat) (hk : k < rows.length) :
    (k < rows.countP (· < r) → rows.getD k 0 < r) ∧
    (rows.countP (· < r) ≤ k → k < rows.countP (· < r) + rows.countP (· = r) →
      rows.getD k 0 = r) ∧
    (rows.countP (· < r) + rows.countP (· = r) ≤ k → r < rows.getD k 0) := by
  have hpw : List.Pairwise (· ≤ ·) rows := List.chain'_iff_pairwise.mp hchain
  have hsplit : rows = (rows.filter fun e => e < r) ++ (rows.filter fun e => e = r)
      ++ (rows.filter fun e => r < e) := by
    simpa using sorted_threeway_split (fun x : Nat => x) r rows hpw
  have h1len : (rows.filter fun e => e < r).length = rows.countP (· < r) :=
    (List.countP_eq_length_filter _ _).symm
  have h2len : (rows.filter fun e => e = r).length = rows.countP (· = r) :=
    (List.countP_eq_length_filter _ _).symm
  have hgd : rows.getD k 0 = ((rows.filter fun e => e < r) ++ ((rows.filter fun e => e = r)
      ++ (rows.filter fun e => r < e))).getD k 0 := by
    conv_lhs => rw [hsplit]
    rw [List.append_assoc]
  have htotlen : rows.length = (rows.filter fun e => e < r).length
      + ((rows.filter fun e => e = r).length + (rows.filter fun e => r < e).length) := by
    conv_lhs => rw [hsplit]
    simp
  refine ⟨?_, ?_, ?_⟩
  · intro hlt
    rw [hgd, List.getD_append _ _ _ _ (by omega)]
    have hmem : (rows.filter fun e => e < r).getD k 0 ∈ rows.filter fun e => e < r := by
      rw [List.getD_eq_getElem _ _ (by omega)]
      exact List.getElem_mem _
    have := List.of_mem_filter hmem
    simpa using this
  · intro hge hlt
    rw [hgd, List.getD_append_right _ _ _ _ (by omega),
      List.getD_append _ _ _ _ (by omega)]
    have hmem : (rows.filter fun e => e = r).getD (k - (rows.filter fun e => e < r).length) 0
        ∈ rows.filter fun e => e = r := by
      rw [List.getD_eq_getElem _ _ (by omega)]
      exact List.getElem_mem _
    have := List.of_mem_filter hmem
    simpa using this
  · intro hge
    rw [hgd, List.getD_append_right _ _ _ _ (by omega),
      List.getD_append_right _ _ _ _ (by omega)]
    have hmem : (rows.filter fun e => r < e).getD
        (k - (rows.filter fun e => e < r).length - (rows.filter fun e => e = r).length) 0
        ∈ rows.filter fun e => r < e := by
      rw [List.getD_eq_getElem _ _ (by omega)]
      exact List.getElem_mem _
    have := List.of_mem_filter hmem
    simpa using this

/-- On a truthfully row-sorted COO matrix the lower-bound fast path finds
exactly the first matching entry, like the linear scan. -/
theorem sortedGetData_eq_linear (coo : COOMatrix)
    (hchain : List.Chain' (· ≤ ·) coo.row) (r c : Nat) :
    sortedGetData coo r c = linearGetData coo r c := by
  have hlb_le : coo.row.countP (· < r) ≤ coo.row.length := List.countP_le_length _
  have hlbm_le : coo.row.countP (· < r) + coo.row.countP (· = r) ≤ coo.row.length := by
    rw [← countP_lt_succ]
    exact List.countP_le_length _
  have hpos := fun k hk => sorted_row_positions coo.row hchain r k hk
  have hseg : (((List.range coo.row.length).drop (coo.row.countP (· < r))).takeWhile fun k =>
      coo.row.getD k 0 = r) = List.range' (coo.row.countP (· < r)) (coo.row.countP (· = r)) := by
    rw [drop_range_eq]
    apply takeWhile_range'_eq
    · omega
    · intro k hk
      have h := (hpos (coo.row.countP (· < r) + k) (by omega)).2.1 (by omega) (by omega)
      simpa using h
    · intro hlt
      have h := (hpos (coo.row.countP (· < r) + coo.row.countP (· = r)) (by omega)).2.2
        (by omega)
      rw [decide_eq_false_iff_not]
      omega
  have hBC : List.range' (coo.row.countP (· < r)) (coo.row.countP (· = r))
      ++ List.range' (coo.row.countP (· < r) + coo.row.countP (· = r))
        (coo.row.length - coo.row.countP (· < r) - coo.row.countP (· = r))
      = List.range' (coo.row.countP (· < r)) (coo.row.length - coo.row.countP (· < r)) := by
    have h := List.range'_append (coo.row.countP (· < r)) (coo.row.countP (· = r))
      (coo.row.length - coo.row.countP (· < r) - coo.row.countP (· = r)) 1
    simp only [one_mul] at h
    rw [h]
    congr 1
    omega
  have hABC : List.range' 0 (coo.row.countP (· < r))
      ++ List.range' (coo.row.countP (· < r)) (coo.row.length - coo.row.countP (· < r))
      = List.range' 0 coo.row.length := by
    have h := List.range'_append 0 (coo.row.countP (· < r))
      (coo.row.length - coo.row.countP (· < r)) 1
    simp only [one_mul, Nat.zero_add] at h
    rw [h]
    congr 1
    omega
  unfold sortedGetData linearGetData
  rw [hseg, List.range_eq_range', ← hABC, ← hBC, List.find?_append, List.find?_append]
  have hA : (List.range' 0 (coo.row.countP (· < r))).find? (fun k =>
      decide (coo.row.getD k 0 = r ∧ coo.col.getD k 0 = c)) = none := by
    rw [List.find?_eq_none]
    intro x hx
    rw [List.mem_range'_1] at hx
    have h := (hpos x (by omega)).1 (by omega)
    rw [decide_eq_true_iff]
    rintro ⟨h1, -⟩
    omega
  have hC : (List.range' (coo.row.countP (· < r) + coo.row.countP (· = r))
      (coo.row.length - coo.row.countP (· < r) - coo.row.countP (· = r))).find? (fun k =>
      decide (coo.row.getD k 0 = r ∧ coo.col.getD k 0 = c)) = none := by
    rw [List.find?_eq_none]
    intro x hx
    rw [List.mem_range'_1] at hx
    have h := (hpos x (by omega)).2.2 (by omega)
    rw [decide_eq_true_iff]
    rintro ⟨h1, -⟩
    omega
  have hB : (List.range' (coo.row.countP (· < r)) (coo.row.countP (· = r))).find? (fun k =>
      decide (coo.col.getD k 0 = c))
      = (List.range' (coo.row.countP (· < r)) (coo.row.countP (· = r))).find? (fun k =>
        decide (coo.row.getD k 0 = r ∧ coo.col.getD k 0 = c)) := by
    apply find?_congr_mem
    intro x hx
    rw [List.mem_range'_1] at hx
    have h := (hpos x (by omega)).2.1 (by omega) (by omega)
    rw [decide_eq_decide]
    constructor
    · intro hc
      exact ⟨h, hc⟩
    · intro hrc
      exact hrc.2
  rw [hA, Option.none_or, hC, hB, Option.or_none]

/-- C10 (claim): `COOGetData` returns one edge id per broadcasted
`(row, col)` query — `max(rowlen, collen)` of them — each being the first
matching entry's stored edge id (or its position when `data` is absent),
and `-1` when no entry matches. -/
theorem C10_cooGetData_correct (coo : COOMatrix) (rows cols : List Nat)
    (hchk : rows.length = cols.length ∨ rows.length = 1 ∨ cols.length = 1)
    (hsorted : coo.row_sorted = true → List.Chain' (· ≤ ·) coo.row) :
    ∃ ret, COOGetData coo rows cols = .ok ret ∧
      ret.length = max rows.length cols.length ∧
      ∀ p, p < max rows.length cols.length →
        ret.getD p 0 = linearGetData coo
          (rows.getD (p * (if rows.length = 1 ∧ cols.length ≠ 1 then 0 else 1)) 0)
          (cols.getD (p * (if cols.length = 1 ∧ rows.length ≠ 1 then 0 else 1)) 0) := by
  refine ⟨_, by unfold COOGetData; rw [if_pos hchk], by simp, ?_⟩
  intro p hp
  rw [getD_map_range _ _ _ _ hp]
  by_cases hs : coo.row_sorted
  · rw [if_pos hs]
    exact sortedGetData_eq_linear coo (hsorted hs) _ _
  · rw [if_neg hs]

/-- Witness for C10: sorted COO, broadcast single row against three
columns; the middle query hits edge 2, the others miss. -/
theorem C10_cooGetData_correct_witness :
    ((1 : Nat) = 3 ∨ (1 : Nat) = 1 ∨ (3 : Nat) = 1) ∧
    ((⟨2, 3, [0, 1, 1], [2, 0, 1], none, true, false⟩ : COOMatrix).row_sorted = true →
      List.Chain' (· ≤ ·) (⟨2, 3, [0, 1, 1], [2, 0, 1], none, true, false⟩ : COOMatrix).row) ∧
    ∃ ret, COOGetData ⟨2, 3, [0, 1, 1], [2, 0, 1], none, true, false⟩ [1] [0, 1, 2]
        = .ok ret ∧
      ret.length = max [1].length [0, 1, 2].length ∧
      ∀ p, p < max [1].length [0, 1, 2].length →
        ret.getD p 0 = linearGetData ⟨2, 3, [0, 1, 1], [2, 0, 1], none, true, false⟩
          ([1].getD (p * (if [1].length = 1 ∧ [0, 1, 2].length ≠ 1 then 0 else 1)) 0)
          ([0, 1, 2].getD (p * (if [0, 1, 2].length = 1 ∧ [1].length ≠ 1 then 0 else 1)) 0) := by
  have hs : (⟨2, 3, [0, 1, 1], [2, 0, 1], none, true, false⟩ : COOMatrix).row_sorted = true →
      List.Chain' (· ≤ ·) (⟨2, 3, [0, 1, 1], [2, 0, 1], none, true, false⟩ : COOMatrix).row := by
    intro _
    refine List.chain'_cons.mpr ⟨by omega, ?_⟩
    refine List.chain'_cons.mpr ⟨by omega, ?_⟩
    exact List.chain'_singleton _
  refine ⟨by decide, hs, ?_⟩
  exact C10_cooGetData_correct ⟨2, 3, [0, 1, 1], [2, 0, 1], none, true, false⟩ [1] [0, 1, 2]
    (by decide) hs

/-! ## Partition kernels (runtime/cuda/nccl_api.cu) -/

/-- `_MapProcByRemainder`: destination rank `index % num_proc`, per
element of the index array. -/
def MapProcByRemainder (index : List Nat) (num_proc : Nat) : List Nat :=
  index.map (· % num_proc)

/-- `_MapProcByMaskRemainder`: destination rank `index & mask`. -/
def MapProcByMaskRemainder (index : List Nat) (mask : Nat) : List Nat :=
  index.map (· &&& mask)

/-- `ceil(log2(comm_size))` as computed by the sparse-buffer generators
(exact for the integer ranges a communicator size can take). -/
def commBits (comm_size : Nat) : Nat :=
  if comm_size ≤ 1 then 0 else Nat.log2 (comm_size - 1) + 1

/-- Rank-mapping step of `GenerateSparseBuffersFromRemainder`: the mask
kernel with `comm_size - 1` when `comm_size` is an exact power of two
(`comm_size = 2^comm_bits`), the remainder kernel otherwise. -/
def GenerateSparseBuffersProcId (comm_size : Nat) (in_idx : List Nat) : List Nat :=
  if comm_size < 2 ^ commBits comm_size then
    MapProcByRemainder in_idx comm_size
  else
    MapProcByMaskRemainder in_idx (comm_size - 1)

theorem commBits_pow2 (k : Nat) (hk : 1 ≤ k) : commBits (2 ^ k) = k := by
  have h2k : 2 ≤ 2 ^ k := by
    calc 2 = 2 ^ 1 := rfl
    _ ≤ 2 ^ k := Nat.pow_le_pow_right (by omega) hk
  unfold commBits
  rw [if_neg (by omega)]
  have hne : 2 ^ k - 1 ≠ 0 := by omega
  have hlow : 2 ^ (2 ^ k - 1).log2 ≤ 2 ^ k - 1 := Nat.log2_self_le hne
  have hhigh : 2 ^ k - 1 < 2 ^ ((2 ^ k - 1).log2 + 1) := Nat.lt_log2_self
  have hlt : (2 ^ k - 1).log2 < k := by
    by_contra hcon
    have : 2 ^ k ≤ 2 ^ (2 ^ k - 1).log2 := Nat.pow_le_pow_right (by omega) (by omega)
    omega
  have hge : k ≤ (2 ^ k - 1).log2 + 1 := by
    by_contra hcon
    have : 2 ^ ((2 ^ k - 1).log2 + 1) ≤ 2 ^ (k - 1) := Nat.pow_le_pow_right (by omega) (by omega)
    have h1 : 2 ^ (k - 1) * 2 = 2 ^ k := by
      rw [← Nat.pow_succ]
      congr 1
      omega
    omega
  omega

theorem le_two_pow_commBits (n : Nat) (h2 : 2 ≤ n) : n ≤ 2 ^ commBits n := by
  unfold commBits
  rw [if_neg (by omega)]
  have := Nat.lt_log2_self (n := n - 1)
  omega

/-- C7 (claim): the remainder kernel always produces a destination rank
strictly below `comm_size`, and for power-of-two communicator sizes the
mask kernel computes exactly the same mapping, so the dispatch in
`GenerateSparseBuffersFromRemainder` always computes `index % comm_size`. -/
theorem C7_partition_kernels (comm_size : Nat) (idx : List Nat) (h2 : 2 ≤ comm_size) :
    (∀ p ∈ MapProcByRemainder idx comm_size, p < comm_size) ∧
    ((∃ k, comm_size = 2 ^ k) →
      MapProcByMaskRemainder idx (comm_size - 1) = MapProcByRemainder idx comm_size) ∧
    GenerateSparseBuffersProcId comm_size idx = MapProcByRemainder idx comm_size := by
  have hb1 : ∀ p ∈ MapProcByRemainder idx comm_size, p < comm_size := by
    intro p hp
    unfold MapProcByRemainder at hp
    rw [List.mem_map] at hp
    obtain ⟨a, -, rfl⟩ := hp
    exact Nat.mod_lt a (by omega)
  have hmask : (∃ k, comm_size = 2 ^ k) →
      MapProcByMaskRemainder idx (comm_size - 1) = MapProcByRemainder idx comm_size := by
    rintro ⟨k, rfl⟩
    unfold MapProcByMaskRemainder MapProcByRemainder
    exact List.map_congr_left fun a _ => Nat.and_pow_two_sub_one_eq_mod a k
  refine ⟨hb1, hmask, ?_⟩
  unfold GenerateSparseBuffersProcId
  by_cases hpow : ∃ k, comm_size = 2 ^ k
  · obtain ⟨k, hk⟩ := hpow
    have hk1 : 1 ≤ k := by
      by_contra hcon
      interval_cases k
      omega
    have hcb : 2 ^ commBits comm_size = comm_size := by
      rw [hk, commBits_pow2 k hk1]
    rw [if_neg (by omega), hmask ⟨k, hk⟩]
  · have hle := le_two_pow_commBits comm_size h2
    have hlt : comm_size < 2 ^ commBits comm_size := by
      rcases Nat.lt_or_ge comm_size (2 ^ commBits comm_size) with h | h
      · exact h
      · exact absurd ⟨commBits comm_size, by omega⟩ hpow
    rw [if_pos hlt]

/-- Witness for C7 at `comm_size = 4` (a power of two) and a concrete
index array. -/
theorem C7_partition_kernels_witness :
    (2 ≤ 4) ∧
    (∀ p ∈ MapProcByRemainder [0, 1, 2, 3, 5, 6, 7, 9] 4, p < 4) ∧
    ((∃ k, 4 = 2 ^ k) →
      MapProcByMaskRemainder [0, 1, 2, 3, 5, 6, 7, 9] 3
        = MapProcByRemainder [0, 1, 2, 3, 5, 6, 7, 9] 4) ∧
    GenerateSparseBuffersProcId 4 [0, 1, 2, 3, 5, 6, 7, 9]
      = MapProcByRemainder [0, 1, 2, 3, 5, 6, 7, 9] 4 :=
  ⟨by omega, C7_partition_kernels 4 [0, 1, 2, 3, 5, 6, 7, 9] (by omega)⟩

/-! ## SparsePush / SparsePull single-rank fast path (nccl_api.cu) -/

/-- Communicator handle: a fixed group size and this process's rank. -/
structure NCCLCommunicator where
  size : Nat
  rank : Nat
deriving DecidableEq

/-- `aten::IndexSelect` row gather, as used by the pull fast path. -/
def IndexSelect (tensor : List (List Int)) (idx : List Nat) : List (List Int) :=
  idx.map fun i => tensor.getD i []

/-- `SparsePush`: with a single-rank communicator the caller's arrays are
returned unchanged ("nothing to do").  The multi-rank path (bucketing,
prefix sums, NCCL AllToAll rounds) spans several machines and is
abstracted as the opaque `exchange` argument; the verified claim concerns
only the `comm_size == 1` branch, which never invokes it. -/
def SparsePush (comm : NCCLCommunicator) (in_idx : List Nat) (in_value : List (List Int))
    (exchange : List Nat → List (List Int) → List Nat × List (List Int)) :
    List Nat × List (List Int) :=
  if comm.size = 1 then (in_idx, in_value) else exchange in_idx in_value

/-- `SparsePull`: with a single-rank communicator the request is answered
by the plain local gather `IndexSelect(local_tensor, req_idx)`; the
multi-rank 5-phase protocol is abstracted as `exchange`. -/
def SparsePull (comm : NCCLCommunicator) (req_idx : List Nat)
    (local_tensor : List (List Int))
    (exchange : List Nat → List (List Int) → List (List Int)) : List (List Int) :=
  if comm.size = 1 then IndexSelect local_tensor req_idx
  else exchange req_idx local_tensor

/-- C8 (claim): with `comm_size == 1`, `SparsePush` returns exactly the
caller's index and value arrays and `SparsePull` returns the plain local
gather, with no exchange performed. -/
theorem C8_singleRank_passthrough (comm : NCCLCommunicator) (in_idx : List Nat)
    (in_value local_tensor : List (List Int)) (req_idx : List Nat)
    (pushExchange : List Nat → List (List Int) → List Nat × List (List Int))
    (pullExchange : List Nat → List (List Int) → List (List Int))
    (h1 : comm.size = 1) :
    SparsePush comm in_idx in_value pushExchange = (in_idx, in_value) ∧
    SparsePull comm req_idx local_tensor pullExchange
      = IndexSelect local_tensor req_idx := by
  unfold SparsePush SparsePull
  rw [if_pos h1, if_pos h1]
  exact ⟨rfl, rfl⟩

/-- Witness for C8 on a single-rank communicator and a concrete pull. -/
theorem C8_singleRank_passthrough_witness :
    (NCCLCommunicator.mk 1 0).size = 1 ∧
    (SparsePush ⟨1, 0⟩ [3, 1] [[10], [20]] (fun _ _ => ([], []))
        = ([3, 1], [[10], [20]]) ∧
      SparsePull ⟨1, 0⟩ [1, 0] [[10], [20]] (fun _ _ => [])
        = IndexSelect [[10], [20]] [1, 0]) :=
  ⟨rfl, C8_singleRank_passthrough ⟨1, 0⟩ [3, 1] [[10], [20]] [[10], [20]] [1, 0]
    (fun _ _ => ([], [])) (fun _ _ => []) rfl⟩

/-! ## NCCLUniqueId hex serialisation (runtime/cuda/nccl_api.cu) -/

def NCCL_UNIQUE_ID_BYTES : Nat := 128

/-- Process-unique communicator identifier: 128 raw bytes (the source
reads `id_.internal` through a `uint8_t` cast, hence `Fin 256`). -/
structure NCCLUniqueId where
  internal : List (Fin 256)
deriving DecidableEq

/-- Lowercase hex digit as printed by the `std::hex` manipulator. -/
def hexDigit (n : Nat) : Char :=
  if n < 10 then Char.ofNat (48 + n) else Char.ofNat (87 + n)

/-- One byte under `setw(2) << setfill('0') << hex`: exactly two
zero-padded lowercase hex characters. -/
def byteToHex (b : Fin 256) : List Char :=
  [hexDigit (b.val / 16), hexDigit (b.val % 16)]

/-- `NCCLUniqueId::ToString`: concatenation of the per-byte renderings.
(The post-hoc `CHECK_EQ(result.length(), 256)` of the source always holds
here and is proved as part of the round-trip theorem.) -/
def NCCLUniqueId.ToString (id : NCCLUniqueId) : List Char :=
  (id.internal.map byteToHex).flatten

/-- `std::strtol(..., nullptr, 16)` of a single hex character. -/
def hexVal (c : Char) : Nat :=
  if 48 ≤ c.toNat ∧ c.toNat ≤ 57 then c.toNat - 48
  else if 97 ≤ c.toNat ∧ c.toNat ≤ 102 then c.toNat - 87
  else if 65 ≤ c.toNat ∧ c.toNat ≤ 70 then c.toNat - 55
  else 0

/-- `NCCLUniqueId::FromString`: `CHECK_EQ` the length against
`NCCL_UNIQUE_ID_BYTES * 2`, then parse each two-character substring in
base 16 into one byte (the `long` to `char` store truncates mod 256). -/
def NCCLUniqueId.FromString (s : List Char) : Except String NCCLUniqueId :=
  if s.length = NCCL_UNIQUE_ID_BYTES * 2 then
    .ok ⟨(List.range NCCL_UNIQUE_ID_BYTES).map fun b =>
      Fin.mk ((hexVal (s.getD (b * 2) '0') * 16 + hexVal (s.getD (b * 2 + 1) '0')) % 256)
        (Nat.mod_lt _ (by omega))⟩
  else .error "Invalid NCCL ID format"

theorem byteHex_flatten_length : ∀ bs : List (Fin 256),
    ((bs.map byteToHex).flatten).length = 2 * bs.length
  | [] => rfl
  | b :: bs => by
      rw [List.map_cons, List.flatten_cons, List.length_append,
        byteHex_flatten_length bs]
      show 2 + 2 * bs.length = 2 * (bs.length + 1)
      omega

theorem byteHex_flatten_getD : ∀ (bs : List (Fin 256)) (b : Nat), b < bs.length →
    ((bs.map byteToHex).flatten).getD (b * 2) '0' = hexDigit ((bs.getD b 0).val / 16) ∧
    ((bs.map byteToHex).flatten).getD (b * 2 + 1) '0' = hexDigit ((bs.getD b 0).val % 16)
  | [], b, h => absurd h (by simp)
  | x :: bs, 0, _ => by
      rw [List.map_cons, List.flatten_cons]
      exact ⟨rfl, rfl⟩
  | x :: bs, b + 1, h => by
      rw [List.map_cons, List.flatten_cons]
      have harith : (b + 1) * 2 = b * 2 + 1 + 1 := by omega
      rw [harith]
      show ((hexDigit _ :: hexDigit _ :: (bs.map byteToHex).flatten).getD (b * 2 + 1 + 1) '0'
          = _) ∧
        ((hexDigit _ :: hexDigit _ :: (bs.map byteToHex).flatten).getD (b * 2 + 1 + 1 + 1) '0'
          = _)
      rw [List.getD_cons_succ, List.getD_cons_succ, List.getD_cons_succ, List.getD_cons_succ,
        List.getD_cons_succ]
      exact byteHex_flatten_getD bs b (by simpa using h)

theorem hexVal_hexDigit (v : Nat) (hv : v < 16) : hexVal (hexDigit v) = v := by
  interval_cases v
  all_goals decide

theorem hexDigit_range (v : Nat) (hv : v < 16) :
    (48 ≤ (hexDigit v).toNat ∧ (hexDigit v).toNat ≤ 57) ∨
    (97 ≤ (hexDigit v).toNat ∧ (hexDigit v).toNat ≤ 102) := by
  interval_cases v
  all_goals decide

/-- C9 (claim): `ToString` yields exactly `2 * NCCL_UNIQUE_ID_BYTES = 256`
hexadecimal characters, two zero-padded digits per byte; `FromString`
inverts it exactly; and `FromString` rejects any string whose length is
not 256. -/
theorem C9_ncclUniqueId_roundtrip (id : NCCLUniqueId)
    (hlen : id.internal.length = NCCL_UNIQUE_ID_BYTES) :
    id.ToString.length = 2 * NCCL_UNIQUE_ID_BYTES ∧
    (∀ c ∈ id.ToString, (48 ≤ c.toNat ∧ c.toNat ≤ 57) ∨
      (97 ≤ c.toNat ∧ c.toNat ≤ 102)) ∧
    NCCLUniqueId.FromString id.ToString = .ok id ∧
    (∀ s : List Char, s.length ≠ NCCL_UNIQUE_ID_BYTES * 2 →
      NCCLUniqueId.FromString s = .error "Invalid NCCL ID format") := by
  have hslen : id.ToString.length = 2 * NCCL_UNIQUE_ID_BYTES := by
    rw [NCCLUniqueId.ToString, byteHex_flatten_length, hlen]
  refine ⟨hslen, ?_, ?_, ?_⟩
  · intro c hc
    rw [NCCLUniqueId.ToString] at hc
    rw [List.mem_flatten] at hc
    obtain ⟨blk, hblk, hcblk⟩ := hc
    rw [List.mem_map] at hblk
    obtain ⟨byte, -, rfl⟩ := hblk
    rw [byteToHex] at hcblk
    simp only [List.mem_cons, List.not_mem_nil, or_false] at hcblk
    rcases hcblk with rfl | rfl
    · exact hexDigit_range _ (by omega)
    · exact hexDigit_range _ (Nat.mod_lt _ (by omega))
  · rw [NCCLUniqueId.FromString, if_pos (by rw [hslen]; omega)]
    refine congrArg Except.ok ?_
    refine congrArg NCCLUniqueId.mk ?_
    apply List.ext_getElem
    · rw [List.length_map, List.length_range, hlen]
    · intro b h1 h2
      have hb : b < NCCL_UNIQUE_ID_BYTES := by simpa using h1
      have hbi : b < id.internal.length := by omega
      rw [List.getElem_map, List.getElem_range]
      obtain ⟨hd1, hd2⟩ := byteHex_flatten_getD id.internal b hbi
      have hts : id.ToString = (id.internal.map byteToHex).flatten := rfl
      apply Fin.ext
      show (hexVal (id.ToString.getD (b * 2) '0') * 16
          + hexVal (id.ToString.getD (b * 2 + 1) '0')) % 256 = (id.internal[b]).val
      have hv : (id.internal.getD b 0).val / 16 * 16 + (id.internal.getD b 0).val % 16
          = (id.internal.getD b 0).val := by omega
      rw [hts, hd1, hd2, hexVal_hexDigit _ (by omega),
        hexVal_hexDigit _ (Nat.mod_lt _ (by omega)), hv,
        Nat.mod_eq_of_lt (id.internal.getD b 0).isLt,
        List.getD_eq_getElem _ _ hbi]
  · intro s hs
    rw [NCCLUniqueId.FromString, if_neg hs]

/-- Witness for C9 on the all-zero 128-byte identifier. -/
theorem C9_ncclUniqueId_roundtrip_witness :
    (NCCLUniqueId.mk (List.replicate 128 (0 : Fin 256))).internal.length
      = NCCL_UNIQUE_ID_BYTES ∧
    (NCCLUniqueId.mk (List.replicate 128 (0 : Fin 256))).ToString.length
      = 2 * NCCL_UNIQUE_ID_BYTES ∧
    NCCLUniqueId.FromString (NCCLUniqueId.mk (List.replicate 128 (0 : Fin 256))).ToString
      = .ok (NCCLUniqueId.mk (List.replicate 128 (0 : Fin 256))) := by
  have h : (NCCLUniqueId.mk (List.replicate 128 (0 : Fin 256))).internal.length
      = NCCL_UNIQUE_ID_BYTES := by
    show (List.replicate 128 (0 : Fin 256)).length = NCCL_UNIQUE_ID_BYTES
    simp [NCCL_UNIQUE_ID_BYTES]
  have := C9_ncclUniqueId_roundtrip (NCCLUniqueId.mk (List.replicate 128 (0 : Fin 256))) h
  exact ⟨h, this.1, this.2.2.1⟩

/-! ## SpMM dispatch (kernel spmm.cc)

The dispatchers `SpMMCsr` / `SpMMCsrHetero` are in the corpus; the inner
kernels they call live in src/array/cpu/spmm.h, which is not, and are
modelled from the spec.  Features are dense integer matrices: the claims
settled here concern reducer dispatch and per-relation wiring, not
floating-point arithmetic. -/

/-- Dense feature matrix: one row of values per node or edge. -/
abbrev Feat := List (List Int)

/-- Modelled from the spec: the elementwise binary operators of the
operator registry (spec section 4.3; the `SWITCH_OP` table of
src/array/cpu/spmm.h is not in the corpus).  `copy_lhs`/`copy_rhs` ignore
the unused operand; an unknown name is a fatal configuration error. -/
def binOpOf (op : String) : Option (Int → Int → Int) :=
  if op = "add" then some (· + ·)
  else if op = "sub" then some (· - ·)
  else if op = "mul" then some (· * ·)
  else if op = "div" then some (· / ·)
  else if op = "copy_lhs" then some fun l _ => l
  else if op = "copy_rhs" then some fun _ r => r
  else none

/-- Modelled from the spec: `cpu::SpMMSumCsr` (src/array/cpu/spmm.h is
not in the corpus; spec section 4.4).  CSR rows index destinations; for
every destination row accumulate `op(ufeat[src], efeat[eid])` elementwise
into the caller-provided output row. -/
def SpMMSumCsr (op : Int → Int → Int) (csr : CSRMatrix) (ufeat efeat out : Feat) : Feat :=
  (List.range csr.num_rows).map fun rid =>
    (rowEntries csr rid).foldl
      (fun acc e => List.zipWith (· + ·) acc
        (List.zipWith op (ufeat.getD e.1 []) (efeat.getD e.2 [])))
      (out.getD rid [])

/-- Modelled from the spec: one destination row of `cpu::SpMMCmpCsr`
(spec section 4.4): fold the row's edges keeping, per feature component,
the better value together with the winning source node and edge id. -/
def cmpRowFold (better : Int → Int → Bool) (op : Int → Int → Int) (csr : CSRMatrix)
    (ufeat efeat : Feat) (rid : Nat) (init : List (Int × Int × Int)) :
    List (Int × Int × Int) :=
  (rowEntries csr rid).foldl
    (fun acc e =>
      List.zipWith (fun st v => if better v st.1 then (v, ((e.1 : Int), (e.2 : Int))) else st)
        acc (List.zipWith op (ufeat.getD e.1 []) (efeat.getD e.2 [])))
    init

/-- Modelled from the spec: `cpu::SpMMCmpCsr` with its two auxiliary
argext outputs (winning source node ids and edge ids). -/
def SpMMCmpCsr (better : Int → Int → Bool) (op : Int → Int → Int) (csr : CSRMatrix)
    (ufeat efeat out : Feat) (argu arge : List (List Int)) :
    Feat × List (List Int) × List (List Int) :=
  let folded := (List.range csr.num_rows).map fun rid =>
    cmpRowFold better op csr ufeat efeat rid
      (List.zipWith (fun v p => (v, p)) (out.getD rid [])
        (List.zipWith (fun a b => (a, b)) (argu.getD rid []) (arge.getD rid [])))
  (folded.map fun row => row.map (fun st => st.1),
   folded.map fun row => row.map (fun st => st.2.1),
   folded.map fun row => row.map (fun st => st.2.2))

/-- `SpMMCsr` dispatcher (spmm.cc): reducer `"sum"` runs the sum kernel,
`"max"`/`"min"` run the compare kernel with the two aux outputs, and any
other reducer string is `LOG(FATAL) "Unsupported SpMM reducer"`.  An
unknown op inside `SWITCH_OP` is likewise fatal. -/
def SpMMCsr (op reduce : String) (csr : CSRMatrix) (ufeat efeat out : Feat)
    (out_aux : List (List (List Int))) :
    Except String (Feat × List (List (List Int))) :=
  if reduce = "sum" then
    match binOpOf op with
    | some f => .ok (SpMMSumCsr f csr ufeat efeat out, out_aux)
    | none => .error ("Unsupported binary op: " ++ op)
  else if reduce = "max" ∨ reduce = "min" then
    match binOpOf op with
    | some f =>
        let res := SpMMCmpCsr (if reduce = "max" then fun v a => a < v else fun v a => v < a)
          f csr ufeat efeat out (out_aux.getD 0 []) (out_aux.getD 1 [])
        .ok (res.1, [res.2.1, res.2.2])
    | none => .error ("Unsupported binary op: " ++ op)
  else .error ("Unsupported SpMM reducer: " ++ reduce)

/-- `SpMMCsrHetero` dispatcher (spmm.cc): only `"sum"` is implemented; it
applies the sum kernel once per relation type, reading the relation's
source feature slot `ufeat_eid[etype]` and accumulating into the shared
destination output slot `out_eid[etype]`.  Every other reducer (the
max/min path is commented out in the source) is fatal. -/
def SpMMCsrHetero (op reduce : String) (vec_csr : List CSRMatrix) (vec_ufeat : List Feat)
    (efeat : Feat) (vec_out : List Feat) (ufeat_eid out_eid : List Nat) :
    Except String (List Feat) :=
  if reduce = "sum" then
    match binOpOf op with
    | some f => .ok ((List.range ufeat_eid.length).foldl
        (fun outs etype =>
          outs.set (out_eid.getD etype 0)
            (SpMMSumCsr f (vec_csr.getD etype ⟨0, 0, [0], [], none, false⟩)
              (vec_ufeat.getD (ufeat_eid.getD etype 0) [])
              efeat (outs.getD (out_eid.getD etype 0) [])))
        vec_out)
    | none => .error ("Unsupported binary op: " ++ op)
  else .error ("Unsupported SpMM reducer: " ++ reduce)

/-- C1 counterexample: at a concrete CSR with both destinations having
in-degree one, `SpMMCsr` invoked with reducer `"mean"` does not compute a
mean (or anything): it aborts with the unsupported-reducer error. -/
theorem C1_counterexample :
    SpMMCsr "add" "mean" ⟨2, 2, [0, 1, 2], [1, 0], none, false⟩ [[1], [2]] [[0], [0]]
      [[0], [0]] [] = .error "Unsupported SpMM reducer: mean" := rfl

/-- C1 (amended): `SpMMCsr` supports only the `sum`, `max` and `min`
reducers; invoking it with reducer `"mean"` fails fatally with
"Unsupported SpMM reducer: mean" for every operator and input, computing
no output (the mean division is not performed by this kernel). -/
theorem C1_spmm_mean_unsupported (op : String) (csr : CSRMatrix)
    (ufeat efeat out : Feat) (out_aux : List (List (List Int))) :
    SpMMCsr op "mean" csr ufeat efeat out out_aux
      = .error "Unsupported SpMM reducer: mean" := by
  unfold SpMMCsr
  rw [if_neg (by decide), if_neg (by decide)]
  rfl

/-- C5 (claim): the heterogeneous SpMM dispatcher supports only the
`"sum"` reducer, applying per-relation SpMM-sum with the relation's
source feature tensor into the shared destination output; any other
reducer string, including `"max"` and `"min"`, fails fatally. -/
theorem C5_spmmHetero_sum_only (op : String) (f : Int → Int → Int)
    (vec_csr : List CSRMatrix) (vec_ufeat : List Feat) (efeat : Feat)
    (vec_out : List Feat) (ufeat_eid out_eid : List Nat)
    (hop : binOpOf op = some f) :
    (∀ reduce, reduce ≠ "sum" →
      SpMMCsrHetero op reduce vec_csr vec_ufeat efeat vec_out ufeat_eid out_eid
        = .error ("Unsupported SpMM reducer: " ++ reduce)) ∧
    SpMMCsrHetero op "max" vec_csr vec_ufeat efeat vec_out ufeat_eid out_eid
      = .error "Unsupported SpMM reducer: max" ∧
    SpMMCsrHetero op "min" vec_csr vec_ufeat efeat vec_out ufeat_eid out_eid
      = .error "Unsupported SpMM reducer: min" ∧
    SpMMCsrHetero op "sum" vec_csr vec_ufeat efeat vec_out ufeat_eid out_eid
      = .ok ((List.range ufeat_eid.length).foldl
          (fun outs etype =>
            outs.set (out_eid.getD etype 0)
              (SpMMSumCsr f (vec_csr.getD etype ⟨0, 0, [0], [], none, false⟩)
                (vec_ufeat.getD (ufeat_eid.getD etype 0) [])
                efeat (outs.getD (out_eid.getD etype 0) [])))
          vec_out) := by
  have herr : ∀ reduce, reduce ≠ "sum" →
      SpMMCsrHetero op reduce vec_csr vec_ufeat efeat vec_out ufeat_eid out_eid
        = .error ("Unsupported SpMM reducer: " ++ reduce) := by
    intro red hred
    unfold SpMMCsrHetero
    rw [if_neg hred]
  refine ⟨herr, herr "max" (by decide), herr "min" (by decide), ?_⟩
  unfold SpMMCsrHetero
  rw [if_pos rfl, hop]

/-- Witness for C5: one relation, source feature 5, edge feature 3,
accumulated into the zero-initialised shared output, giving 8; the
`"max"` request fails. -/
theorem C5_spmmHetero_sum_only_witness :
    binOpOf "add" = some (· + ·) ∧
    SpMMCsrHetero "add" "max" [⟨1, 1, [0, 1], [0], none, false⟩] [[[5]]] [[3]] [[[0]]]
      [0] [0] = .error "Unsupported SpMM reducer: max" ∧
    SpMMCsrHetero "add" "sum" [⟨1, 1, [0, 1], [0], none, false⟩] [[[5]]] [[3]] [[[0]]]
      [0] [0] = .ok [[[8]]] := by
  have h := C5_spmmHetero_sum_only "add" (· + ·) [⟨1, 1, [0, 1], [0], none, false⟩]
    [[[5]]] [[3]] [[[0]]] [0] [0] rfl
  refine ⟨rfl, h.2.1, ?_⟩
  rw [h.2.2.2]
  rfl

end DGLCore
